import Mathlib

/-!
Shallow embedding of `sheerid_verifier.py` (the SheerID / lacedore batch
verification client), in its two variants:

* the `system` variant (`src/system/google/backend/sheerid_verifier.py`),
  whose `verify_batch` submits one remote task per identifier and runs a
  shared polling loop per chunk of 50;
* the `google` variant (`src/google/backend/sheerid_verifier.py`), whose
  `verify_batch` posts the whole identifier list to `/verify/batch` in a
  single request.

JSON values are modelled flat (strings, integers, booleans, null): every
field the client inspects is a scalar.  A Python `dict` is an association
list with insertion-order semantics (`dset` overwrites in place, appends
new keys at the end).  The remote service is an oracle: a function from
the index of the network call to the response observed.  `time.sleep` is
a no-op in the model; `time.time()` reads the constant `clock` field of
the client state.  A raised Python exception is an `Except.error` carrying
`str(e)`; a response whose body fails to parse (`resp.json()` raising) is
modelled by a `none` body, decoded to the fixed text "JSONDecodeError".
-/

/-- A Python string-keyed dict: association list in insertion order. -/
abbrev Dict (β : Type) := List (String × β)

/-- Python `d[k]` / `d.get(k)`: first (unique) binding of `k`. -/
def dget {β : Type} : Dict β → String → Option β
  | [], _ => none
  | (k, v) :: t, q => if k = q then some v else dget t q

/-- Python `d[k] = v`: overwrite in place, or append a new key at the end. -/
def dset {β : Type} : Dict β → String → β → Dict β
  | [], q, v => [(q, v)]
  | (k, w) :: t, q, v => if k = q then (q, v) :: t else (k, w) :: dset t q v

/-- The keys of a dict, in insertion order. -/
def dkeys {β : Type} (d : Dict β) : List String := d.map Prod.fst

/-- Python `d.get(k, default)`. -/
def dgetD {β : Type} (d : Dict β) (q : String) (dflt : β) : β :=
  (dget d q).getD dflt

@[simp] theorem dget_nil {β : Type} (q : String) : dget ([] : Dict β) q = none := rfl

@[simp] theorem dget_cons {β : Type} (k q : String) (v : β) (t : Dict β) :
    dget ((k, v) :: t) q = if k = q then some v else dget t q := rfl

@[simp] theorem dset_nil {β : Type} (q : String) (v : β) :
    dset ([] : Dict β) q v = [(q, v)] := rfl

@[simp] theorem dset_cons {β : Type} (k q : String) (w v : β) (t : Dict β) :
    dset ((k, w) :: t) q v =
      if k = q then (q, v) :: t else (k, w) :: dset t q v := rfl

theorem dget_dset_self {β : Type} (d : Dict β) (q : String) (v : β) :
    dget (dset d q v) q = some v := by
  induction d with
  | nil => simp
  | cons p t ih =>
    obtain ⟨k, w⟩ := p
    by_cases h : k = q <;> simp [h, ih]

theorem dget_dset_ne {β : Type} (d : Dict β) (q r : String) (v : β) (h : q ≠ r) :
    dget (dset d q v) r = dget d r := by
  induction d with
  | nil => simp [h]
  | cons p t ih =>
    obtain ⟨k, w⟩ := p
    by_cases hk : k = q
    · subst hk
      simp [h]
    · simp only [dset_cons, if_neg hk, dget_cons]
      by_cases hr : k = r
      · rw [if_pos hr, if_pos hr]
      · rw [if_neg hr, if_neg hr, ih]

theorem dkeys_dset {β : Type} (d : Dict β) (q : String) (v : β) :
    dkeys (dset d q v) = if q ∈ dkeys d then dkeys d else dkeys d ++ [q] := by
  induction d with
  | nil => simp [dkeys]
  | cons p t ih =>
    obtain ⟨k, w⟩ := p
    by_cases h : k = q
    · subst h
      simp [dkeys]
    · have h2 : ¬ q = k := fun hq => h hq.symm
      simp only [dkeys] at ih ⊢
      by_cases hq : q ∈ List.map Prod.fst t <;> simp [h, h2, hq, ih]

theorem dkeys_dset_nodup {β : Type} (d : Dict β) (q : String) (v : β)
    (h : (dkeys d).Nodup) : (dkeys (dset d q v)).Nodup := by
  rw [dkeys_dset]
  by_cases hq : q ∈ dkeys d
  · simpa [hq] using h
  · rw [if_neg hq]
    refine h.append (List.nodup_singleton q) ?_
    intro a ha hb
    rw [List.mem_singleton] at hb
    subst hb
    exact hq ha

theorem mem_dkeys_dset {β : Type} (d : Dict β) (q r : String) (v : β) :
    r ∈ dkeys (dset d q v) ↔ r ∈ dkeys d ∨ r = q := by
  rw [dkeys_dset]
  by_cases hq : q ∈ dkeys d
  · simp only [hq, if_true]
    constructor
    · exact Or.inl
    · rintro (h | h)
      · exact h
      · exact h ▸ hq
  · simp [hq]

theorem dget_isSome_iff_mem_dkeys {β : Type} (d : Dict β) (q : String) :
    (∃ v, dget d q = some v) ↔ q ∈ dkeys d := by
  induction d with
  | nil => simp [dkeys]
  | cons p t ih =>
    obtain ⟨k, w⟩ := p
    by_cases h : k = q
    · subst h
      simp [dkeys]
    · have h2 : ¬ q = k := fun hq => h hq.symm
      simp [dkeys, h, h2, ih]

/-- Flat JSON scalar values: the client only ever inspects scalars. -/
inductive JVal : Type where
  | s (v : String)
  | n (v : Int)
  | b (v : Bool)
  | null
deriving DecidableEq, Repr

/-- A flat JSON object. -/
abbrev Jobj := Dict JVal

/-- Python truthiness of a JSON scalar. -/
def jtruthy : JVal → Bool
  | .s v => v ≠ ""
  | .n v => v ≠ 0
  | .b v => v
  | .null => false

/-- Python truthiness of `d.get(k)` (missing key is `None`, falsy). -/
def truthy : Option JVal → Bool
  | none => false
  | some v => jtruthy v

/-- Python `str()` of a JSON scalar, as used in f-strings. -/
def jshow : JVal → String
  | .s v => v
  | .n v => toString v
  | .b true => "True"
  | .b false => "False"
  | .null => "None"

/-- Python `x == "lit"` for a JSON value against a string literal. -/
def jeqStr (v : JVal) (t : String) : Bool :=
  match v with
  | .s w => w = t
  | _ => false

/-- One remote response: a raised transport exception, or an HTTP response
with status code, raw text, and a parsed body (`none` when `resp.json()`
would raise). -/
inductive NetResp : Type where
  | exn (msg : String)
  | http (code : Nat) (text : String) (body : Option Jobj)
deriving DecidableEq, Repr

/-- The remote service: the response to the i-th network call. -/
abbrev Oracle := Nat → NetResp

/-- Client-side observable state threaded through every operation:
`k` counts network calls made (the next oracle index), `quota` is
`self.quota_info`, `dbWrites` logs each `_save_quota_to_db` call,
`cb` logs each progress-callback invocation, `clock` is the external
wall clock read by `time.time()`. -/
structure St : Type where
  k : Nat
  quota : Jobj
  dbWrites : List Jobj
  cb : List (Option String × String)
  clock : Int
deriving DecidableEq, Repr

/-- Perform one network call: consume the next oracle response. -/
def netCall (o : Oracle) (st : St) : NetResp × St :=
  (o st.k, { st with k := st.k + 1 })

/-- Invoke the progress callback (recorded in the trace). -/
def cbCall (vid : Option String) (msg : String) (st : St) : St :=
  { st with cb := st.cb ++ [(vid, msg)] }

/-- Model of `_save_quota_to_db`: persist the quota record (logged as a write). -/
def saveQuotaToDb (info : Jobj) (st : St) : St :=
  { st with dbWrites := st.dbWrites ++ [info] }

/-- Step 2 of `get_system_status` (system variant): the `/quota` probe.
Run inside its own `try`: every failure (transport, parse, non-200) is
logged and swallowed, leaving `result` as it was; a 200 with a body
updates `result`, `quota_info`, and the persisted record. -/
def gssQuota (o : Oracle) (result : Jobj) (st : St) : Jobj × St :=
  let (r, st1) := netCall o st
  match r with
  | .exn _ => (result, st1)
  | .http code _ body =>
    if code = 200 then
      match body with
      | none => (result, st1)
      | some d =>
          let credits := dgetD d "credits" (.n 0)
          let result1 := dset result "current_quota" credits
          let qi : Jobj := [("current_quota", credits), ("updated_at", .n st1.clock)]
          (result1, saveQuotaToDb qi { st1 with quota := qi })
    else (result, st1)

/-- The probe `get_system_status` of the system variant: probe `/upstream/status`;
on a raised upstream request (or a 200 whose body fails to parse) return
immediately with `status = error`; otherwise — `available` truthy, falsy,
or a non-200 — fall through to the `/quota` probe (`gssQuota`) before
returning. -/
def get_system_status (o : Oracle) (st : St) : Except String Jobj × St :=
  let result : Jobj :=
    [("status", .s "unknown"), ("availableSlots", .n 100),
     ("activeJobs", .n 0), ("maxConcurrent", .n 10)]
  let (r1, st1) := netCall o st
  match r1 with
  | .exn e =>
      (.ok (dset (dset result "status" (.s "error")) "message"
              (.s ("Connection error: " ++ e))), st1)
  | .http code _ body =>
    if code = 200 then
      match body with
      | none =>
          (.ok (dset (dset result "status" (.s "error")) "message"
                  (.s "Connection error: JSONDecodeError")), st1)
      | some d =>
          let result1 :=
            if truthy (dget d "available") then
              dset (dset result "status" (.s "ok")) "upstream_latency"
                (dgetD d "latency_ms" .null)
            else
              dset (dset result "status" (.s "error")) "message"
                (dgetD d "error" (.s "Upstream unavailable"))
          let p := gssQuota o result1 st1
          (.ok p.1, p.2)
    else
      let result1 := dset (dset result "status" (.s "error")) "message"
        (.s ("Upstream check failed: " ++ toString code))
      let p := gssQuota o result1 st1
      (.ok p.1, p.2)

/-- The constant `poll_interval = 2.0`: the base poll interval. -/
def basePollInterval : ℚ := 2

/-- The constant `max_poll_interval = 5.0`: the poll interval ceiling. -/
def maxPollInterval : ℚ := 5

/-- The fixed backoff increment `0.5`. -/
def pollIncrement : ℚ := 1 / 2

/-- The update `poll_interval = min(poll_interval + 0.5, max_poll_interval)`. -/
def nextInterval (i : ℚ) : ℚ := min (i + pollIncrement) maxPollInterval

/-- The interval used for the n-th poll of a polling sequence: the value
of `poll_interval` after n updates from its base value. -/
def pollSeq : Nat → ℚ
  | 0 => basePollInterval
  | n + 1 => nextInterval (pollSeq n)

/-- Python `status_data.get("status", "unknown")`. -/
def statusOf (d : Jobj) : JVal := dgetD d "status" (.s "unknown")

/-- Python `status_data.get("currentStep", status)`. -/
def stepOf (d : Jobj) : JVal := dgetD d "currentStep" (statusOf d)

/-- Python `status_data.get("message", "")`. -/
def msgOf (d : Jobj) : JVal := dgetD d "message" (.s "")

/-- Python `status in ["completed", "error"]`. -/
def statusTerminal (d : Jobj) : Bool :=
  jeqStr (statusOf d) "completed" || jeqStr (statusOf d) "error"

/-- The keys a status poll never merges: `["task_id", "status", "api_key"]`. -/
def excludedKeys : List String := ["task_id", "status", "api_key"]

/-- Merge one 200-status poll body `d` into a result record:
copy every field whose key is not in `excludedKeys`, then set
`currentStep` to `d.get("currentStep", d.get("status", "unknown"))` and
`message` to `d.get("message", "")`.  Shared verbatim by `verify_single`
and by the chunked polling loop of the system `verify_batch`. -/
def mergeFields (result d : Jobj) : Jobj :=
  d.foldl (fun r kv => if kv.1 ∈ excludedKeys then r else dset r kv.1 kv.2) result

/-- See `mergeFields`: the verbatim field copy followed by the explicit
`currentStep` and `message` assignments. -/
def mergeStatus (result d : Jobj) : Jobj :=
  dset (dset (mergeFields result d) "currentStep" (stepOf d)) "message" (msgOf d)

/-- Outcome of `verify_single`'s polling loop: a Python exception escaped
the loop carrying the current (already merged) result, the loop broke on
a terminal status, or the model's fuel ran out (the Python loop is still
running). -/
inductive PollOut : Type where
  | raised (e : String) (result : Jobj)
  | finished (result : Jobj)
  | fuelOut
deriving DecidableEq, Repr

/-- The `while True:` polling loop of `verify_single` (lines 143-171 of
the system variant; identical in the google variant).  Each iteration
sleeps, polls once, and: on a raised request or unparsable 200 body the
exception escapes the loop; on a 200 body the fields are merged and the
loop breaks exactly when the raw `status` is `completed` or `error`; a
non-200 response only logs and continues. -/
def pollLoop (o : Oracle) (vid : String) (fuel : Nat) (interval : ℚ)
    (result : Jobj) (st : St) : PollOut × St :=
  match fuel with
  | 0 => (.fuelOut, st)
  | fuel + 1 =>
    let (r, st1) := netCall o st
    match r with
    | .exn e => (.raised e result, st1)
    | .http code _ body =>
      if code = 200 then
        match body with
        | none => (.raised "JSONDecodeError" result, st1)
        | some d =>
          let result1 := mergeStatus result d
          let st2 := cbCall (some vid)
            ("Step: " ++ jshow (stepOf d) ++ " | Msg: " ++ jshow (msgOf d)) st1
          if statusTerminal d then (.finished result1, st2)
          else pollLoop o vid fuel (nextInterval interval) result1 st2
      else pollLoop o vid fuel (nextInterval interval) result st1

/-- The shared error path of `verify_single`: set `currentStep = error`
and `message = m` on the current result and fire the callback. -/
def vsError (vid : String) (result : Jobj) (m : String) (st : St) : Jobj × St :=
  (dset (dset result "currentStep" (.s "error")) "message" (.s m),
   cbCall (some vid) ("Step: error | Msg: " ++ m) st)

/-- The operation `verify_single` (identical in both variants): early-return on a falsy
identifier; otherwise submit `/verify`, then poll.  The whole submission
and polling block sits inside one `try`, so a request raised during a
poll is caught by the outer handler, which stamps the current result
with `currentStep = error`.  `.ok none` models the divergence of an
endless polling loop (fuel exhausted); in that case Python has not
returned and the trailing quota refresh never runs. -/
def verify_single (o : Oracle) (fuel : Nat) (vid : String) (st : St) :
    Except String (Option Jobj) × St :=
  if vid = "" then
    (.ok (some [("currentStep", .s "error"),
                ("message", .s "No verification ID provided")]), st)
  else
    let result0 : Jobj :=
      [("currentStep", .s "pending"), ("message", .s "Creating task..."),
       ("verificationId", .s vid)]
    let stA := cbCall (some vid) "Step: pending | Msg: Creating task..." st
    let (r, stB) := netCall o stA
    let afterTry : Option Jobj × St :=
      match r with
      | .exn e =>
          let p := vsError vid result0 ("Connection error: " ++ e) stB
          (some p.1, p.2)
      | .http code text body =>
        if code = 200 then
          match body with
          | none =>
              let p := vsError vid result0 "Connection error: JSONDecodeError" stB
              (some p.1, p.2)
          | some d =>
            if truthy (dget d "task_id") then
              let result1 :=
                dset result0 "message" (.s "Task created, waiting for processing...")
              let stC := cbCall (some vid)
                "Step: pending | Msg: Task created, waiting for processing..." stB
              let q := pollLoop o vid fuel basePollInterval result1 stC
              match q with
              | (.raised e res, stD) =>
                  let p := vsError vid res ("Connection error: " ++ e) stD
                  (some p.1, p.2)
              | (.finished res, stD) => (some res, stD)
              | (.fuelOut, stD) => (none, stD)
            else
              let p := vsError vid result0 "API response missing task_id" stB
              (some p.1, p.2)
        else
          let p := vsError vid result0 ("HTTP " ++ toString code ++ ": " ++ text) stB
          (some p.1, p.2)
    match afterTry with
    | (none, stE) => (.ok none, stE)
    | (some res, stE) =>
        let p := get_system_status o stE
        (.ok (some res), p.2)

/-- Structural helper for `chunks50`: `fuel` only bounds the recursion
depth and never influences the value once `l.length ≤ fuel`. -/
def chunksAux (fuel : Nat) (l : List String) : List (List String) :=
  match fuel, l with
  | _, [] => []
  | 0, l => [l]
  | fuel + 1, x :: t => ((x :: t).take 50) :: chunksAux fuel ((x :: t).drop 50)

/-- Python `[verification_ids[i:i+50] for i in range(0, len(verification_ids), 50)]`:
partition into contiguous slices of 50 (CHUNK_SIZE), last one possibly
shorter. -/
def chunks50 (l : List String) : List (List String) := chunksAux l.length l

theorem chunksAux_congr (f1 : Nat) : ∀ (f2 : Nat) (l : List String),
    l.length ≤ f1 → l.length ≤ f2 → chunksAux f1 l = chunksAux f2 l := by
  induction f1 with
  | zero =>
    intro f2 l h1 _
    have : l = [] := List.length_eq_zero.mp (Nat.le_zero.mp h1)
    subst this
    cases f2 <;> rfl
  | succ f1 ih =>
    intro f2 l h1 h2
    cases l with
    | nil => cases f2 <;> rfl
    | cons x t =>
      cases f2 with
      | zero => simp at h2
      | succ f2 =>
        simp only [chunksAux]
        have hd : ((x :: t).drop 50).length ≤ f1 := by
          simp only [List.length_drop, List.length_cons]
          simp only [List.length_cons] at h1
          omega
        have hd2 : ((x :: t).drop 50).length ≤ f2 := by
          simp only [List.length_drop, List.length_cons]
          simp only [List.length_cons] at h2
          omega
        rw [ih f2 _ hd hd2]

/-- The slicing loop one step at a time, independent of the fuel. -/
theorem chunks50_cons (x : String) (t : List String) :
    chunks50 (x :: t) = ((x :: t).take 50) :: chunks50 ((x :: t).drop 50) := by
  show chunksAux (x :: t).length (x :: t) = _
  simp only [List.length_cons, chunksAux]
  rw [chunksAux_congr t.length _ _
    (by simp only [List.length_drop, List.length_cons]; omega) (le_refl _)]
  rfl

@[simp] theorem chunks50_nil : chunks50 [] = [] := rfl

/-- The `results` accumulator of the system `verify_batch`:
identifier to result record. -/
abbrev RMap := Dict Jobj

/-- The `active_tasks` dict of one chunk: identifier to task id value. -/
abbrev AMap := Dict JVal

/-- Python `results[vid][k] = v`. -/
def rset (results : RMap) (vid k : String) (v : JVal) : RMap :=
  dset results vid (dset (dgetD results vid []) k v)

/-- Submission failure path of the system `verify_batch`: stamp the
identifier's record with `currentStep = error` and the message, fire the
callback, leave it out of `active_tasks`. -/
def subError (vid : String) (m : String) (acc : RMap × AMap × St) :
    RMap × AMap × St :=
  (rset (rset acc.1 vid "currentStep" (.s "error")) vid "message" (.s m),
   acc.2.1,
   cbCall (some vid) ("Step: error | Msg: " ++ m) acc.2.2)

/-- Submit one identifier of a chunk (system `verify_batch`, lines
227-266): initialise its record to pending, POST `/verify`, and either
register the returned task id in `active_tasks` or stamp an error. -/
def submitOne (o : Oracle) (acc : RMap × AMap × St) (vid : String) :
    RMap × AMap × St :=
  let results := dset acc.1 vid
    [("currentStep", .s "pending"), ("message", .s "Creating task...")]
  let active := acc.2.1
  let st := cbCall (some vid) "Step: pending | Msg: Creating task..." acc.2.2
  let (r, st1) := netCall o st
  match r with
  | .exn e => subError vid ("Connection error: " ++ e) (results, active, st1)
  | .http code text body =>
    if code = 200 then
      match body with
      | none =>
          subError vid "Connection error: JSONDecodeError" (results, active, st1)
      | some d =>
        if truthy (dget d "task_id") then
          (rset results vid "message" (.s "Task created, waiting for processing..."),
           dset active vid ((dget d "task_id").getD .null),
           cbCall (some vid)
             "Step: pending | Msg: Task created, waiting for processing..." st1)
        else
          subError vid "API response missing task_id" (results, active, st1)
    else
      subError vid ("HTTP " ++ toString code ++ ": " ++ text) (results, active, st1)

/-- One status check of one still-active task in the chunk's shared
polling loop (system `verify_batch`, lines 276-308).  Any raised request
or unparsable body is caught per-task and the task stays active; a 200
body is merged via `mergeStatus` and the task is dropped from the active
set exactly when the raw status is terminal. -/
def pollTask (o : Oracle) (acc : RMap × AMap × St) (vt : String × JVal) :
    RMap × AMap × St :=
  let results := acc.1
  let still := acc.2.1
  let (r, st1) := netCall o acc.2.2
  match r with
  | .exn _ => (results, dset still vt.1 vt.2, st1)
  | .http code _ body =>
    if code = 200 then
      match body with
      | none => (results, dset still vt.1 vt.2, st1)
      | some d =>
        let results1 := dset results vt.1 (mergeStatus (dgetD results vt.1 []) d)
        let st2 := cbCall (some vt.1)
          ("Step: " ++ jshow (stepOf d) ++ " | Msg: " ++ jshow (msgOf d)) st1
        if statusTerminal d then (results1, still, st2)
        else (results1, dset still vt.1 vt.2, st2)
    else (results, dset still vt.1 vt.2, st1)

/-- The chunk's shared polling loop (`while active_tasks:`): each
iteration sleeps once, checks every still-active task once in insertion
order, then recurses on the surviving set with the backed-off interval.
`none` models the divergence of a never-emptying active set. -/
def pollChunk (o : Oracle) (fuel : Nat) (interval : ℚ) (active : AMap)
    (results : RMap) (st : St) : Option RMap × St :=
  if active.isEmpty then (some results, st)
  else
    match fuel with
    | 0 => (none, st)
    | fuel + 1 =>
      let t := active.foldl (pollTask o) (results, ([] : AMap), st)
      pollChunk o fuel (nextInterval interval) t.2.1 t.1 t.2.2

/-- Process one chunk of the system `verify_batch`: submit every
identifier in order, then run the shared polling loop from the base
interval. -/
def processChunk (o : Oracle) (fuel : Nat) (chunk : List String)
    (results : RMap) (st : St) : Option RMap × St :=
  let t := chunk.foldl (submitOne o) (results, ([] : AMap), st)
  pollChunk o fuel basePollInterval t.2.1 t.1 t.2.2

/-- Process the chunks strictly sequentially; a diverging chunk blocks
the rest (Python never reaches them). -/
def processChunks (o : Oracle) (fuel : Nat) (cs : List (List String))
    (results : RMap) (st : St) : Option RMap × St :=
  match cs with
  | [] => (some results, st)
  | c :: rest =>
    match processChunk o fuel c results st with
    | (none, st1) => (none, st1)
    | (some results1, st1) => processChunks o fuel rest results1 st1

/-- The operation `verify_batch` of the system variant (lines 199-319): empty input
returns `{}` untouched; otherwise partition into chunks of 50, announce
the batch through the callback, process the chunks sequentially, and
finish with a best-effort quota refresh.  `.ok none` models divergence
inside a chunk's polling loop. -/
def verify_batch (o : Oracle) (fuel : Nat) (ids : List String) (st : St) :
    Except String (Option RMap) × St :=
  if ids.isEmpty then (.ok (some []), st)
  else
    let st1 := cbCall none
      ("Starting async batch verification for " ++ toString ids.length ++
       " items (" ++ toString (chunks50 ids).length ++ " chunks)...") st
    match processChunks o fuel (chunks50 ids) [] st1 with
    | (none, st2) => (.ok none, st2)
    | (some results, st2) =>
        let p := get_system_status o st2
        (.ok (some results), p.2)

/-- A result record of the google `verify_batch`: the converted
`currentStep`, the message, and (for identifiers present in the remote
results) the raw record kept under the `data` key. -/
structure GRec : Type where
  step : String
  message : JVal
  data : Option Jobj
deriving DecidableEq, Repr

/-- The mapping returned by the google `verify_batch`.  Model note: a
remote record whose `verificationId` is not a string is skipped (Python
would key the dict by the raw value; input identifiers are strings, so
entries for the input are unaffected). -/
abbrev GRMap := Dict GRec

/-- The parsed body of a `/verify/batch` response: the `results` key
(when present, a list of flat records) and the remaining scalar fields
(`credits_deducted`, `detail`, `message`, ...). -/
structure BatchBody : Type where
  results : Option (List Jobj)
  rest : Jobj
deriving DecidableEq, Repr

/-- The single `/verify/batch` response observed by the google
`verify_batch`: raised request, or HTTP status with raw text and parsed
body (`none` when `resp.json()` raises). -/
inductive BatchResp : Type where
  | exn (msg : String)
  | http (code : Nat) (text : String) (body : Option BatchBody)
deriving DecidableEq, Repr

/-- Python `for vid in verification_ids: results[vid] = {error, m}`. -/
def allError (ids : List String) (m : JVal) : GRMap :=
  ids.foldl (fun acc vid => dset acc vid ⟨"error", m, none⟩) []

/-- One step of the success loop of the google `verify_batch` (lines
192-210): a remote record with a truthy string `verificationId` gets
`success` (truthiness) converted into `currentStep` `success`/`error`,
the message taken, the raw record kept under `data`, and the callback
fired; other records are skipped. -/
def gFillStep (acc : GRMap × St) (res : Jobj) : GRMap × St :=
  match dget res "verificationId" with
  | some (JVal.s v) =>
      if v = "" then acc
      else
        let status := if truthy (dget res "success") then "success" else "error"
        let msg := dgetD res "message" (.s "")
        (dset acc.1 v ⟨status, msg, some res⟩,
         cbCall (some v) ("Step: " ++ status ++ " | Msg: " ++ jshow msg) acc.2)
  | _ => acc

/-- The success loop of the google `verify_batch` over all returned
records, starting from the empty mapping. -/
def gBatchFill (rs : List Jobj) (st : St) : GRMap × St :=
  rs.foldl gFillStep ([], st)

/-- One step of lines 213-215 of the google variant: an input identifier
with no entry yet is marked `error` / `API未返回结果`. -/
def gMissStep (m : GRMap) (vid : String) : GRMap :=
  match dget m vid with
  | some _ => m
  | none => dset m vid ⟨"error", .s "API未返回结果", none⟩

/-- Lines 213-215 of the google variant, over the whole input list. -/
def gFillMissing (ids : List String) (acc : GRMap) : GRMap :=
  ids.foldl gMissStep acc

/-- The operation `verify_batch` of the google variant (lines 158-234): always one
POST to `/verify/batch` — there is no empty-input guard — then convert
the returned records, fill in the missing identifiers, or mark the whole
input with the error detail. -/
def verify_batch_g (br : BatchResp) (ids : List String) (st : St) :
    Except String GRMap × St :=
  let st1 := { st with k := st.k + 1 }
  match br with
  | .exn e => (.ok (allError ids (.s e)), st1)
  | .http code text body =>
    if code = 200 then
      match body with
      | none => (.ok (allError ids (.s "JSONDecodeError")), st1)
      | some bb =>
          let p := gBatchFill (bb.results.getD []) st1
          (.ok (gFillMissing ids p.1), p.2)
    else
      let base := JVal.s ("HTTP " ++ toString code ++ ": " ++ text)
      let emsg :=
        match body with
        | none => base
        | some bb =>
            let e1 := dgetD bb.rest "detail" base
            if jtruthy e1 then e1 else dgetD bb.rest "message" base
      (.ok (allError ids emsg), st1)

/-- The operation `redeem_code` of the system variant (lines 321-342): one POST,
`resp.json()` decoded unconditionally; a present non-null
`credits_added` together with a present `credits_total` key refreshes
and persists the quota record; any raised step returns an error record. -/
def redeem_code (o : Oracle) (st : St) : Except String Jobj × St :=
  let (r, st1) := netCall o st
  match r with
  | .exn e => (.ok [("status", .s "error"), ("message", .s e)], st1)
  | .http _ _ body =>
    match body with
    | none => (.ok [("status", .s "error"), ("message", .s "JSONDecodeError")], st1)
    | some d =>
      match dget d "credits_added" with
      | none => (.ok d, st1)
      | some .null => (.ok d, st1)
      | some _ =>
        match dget d "credits_total" with
        | none => (.ok d, st1)
        | some w =>
            let qi : Jobj := [("current_quota", w), ("updated_at", .n st1.clock)]
            (.ok d, saveQuotaToDb qi { st1 with quota := qi })

/-- The operation `cancel_verification` of the system variant (lines 344-355): one
POST, body returned as-is; a raised step returns an error record. -/
def cancel_verification (o : Oracle) (st : St) : Except String Jobj × St :=
  let (r, st1) := netCall o st
  match r with
  | .exn e => (.ok [("status", .s "error"), ("message", .s e)], st1)
  | .http _ _ body =>
    match body with
    | none => (.ok [("status", .s "error"), ("message", .s "JSONDecodeError")], st1)
    | some d => (.ok d, st1)

/-- The operation `get_system_status` of the google variant (lines 48-67): one GET to
`/quota`, adapted to the legacy record shape; every failure mode folds
into a `status = error` record. -/
def get_system_status_g (o : Oracle) (st : St) : Except String Jobj × St :=
  let (r, st1) := netCall o st
  match r with
  | .exn e => (.ok [("status", .s "error"), ("message", .s e)], st1)
  | .http code text body =>
    if code = 200 then
      match body with
      | none => (.ok [("status", .s "error"), ("message", .s "JSONDecodeError")], st1)
      | some d =>
          (.ok [("status", .s "ok"), ("availableSlots", .n 999),
                ("activeJobs", .n 0), ("maxConcurrent", .n 10),
                ("credits", dgetD d "credits" (.n 0))], st1)
    else (.ok [("status", .s "error"), ("code", .n code), ("message", .s text)], st1)

/-- The operation `redeem` of the google variant (lines 236-264): one POST; a 200 body
is returned as-is; a non-200 answer is folded into
`{success: false, error: detail}` with `detail` chained through
`err_json.get("detail") or err_json.get("message") or "兑换失败 (code)"`. -/
def redeem_g (o : Oracle) (st : St) : Except String Jobj × St :=
  let (r, st1) := netCall o st
  match r with
  | .exn e => (.ok [("success", .b false), ("error", .s e)], st1)
  | .http code text body =>
    if code = 200 then
      match body with
      | none => (.ok [("success", .b false), ("error", .s "JSONDecodeError")], st1)
      | some d => (.ok d, st1)
    else
      match body with
      | none =>
          (.ok [("success", .b false),
                ("error", .s ("兑换失败 (" ++ toString code ++ "): " ++ text))], st1)
      | some j =>
          let d1 := dget j "detail"
          let detail :=
            if truthy d1 then d1.getD .null
            else
              let d2 := dget j "message"
              if truthy d2 then d2.getD .null
              else .s ("兑换失败 (" ++ toString code ++ ")")
          (.ok [("success", .b false), ("error", detail)], st1)

/-- The operation `cancel_verification` of the google variant (lines 266-270): a
constant record, no network call. -/
def cancel_verification_g (st : St) : Except String Jobj × St :=
  (.ok [("status", .s "error"), ("message", .s "Not supported in V3 API")], st)

/-- A fresh client state: no calls made, empty quota cache, no writes,
no callbacks, clock at 0. -/
def st0 : St := ⟨0, [], [], [], 0⟩

/-- C10: calling `verify_single` with the empty (falsy) verification
identifier returns exactly the record
`{currentStep: error, message: No verification ID provided}` and leaves
the state untouched: no network call is consumed, the callback trace is
unchanged, and the quota record and its persisted form are unchanged. -/
theorem c10_verify_single_falsy_id (o : Oracle) (fuel : Nat) (st : St) :
    verify_single o fuel "" st =
      (Except.ok (some [("currentStep", JVal.s "error"),
                        ("message", JVal.s "No verification ID provided")]), st) := by
  rfl

theorem pollSeq_le_max (n : Nat) : pollSeq n ≤ maxPollInterval := by
  induction n with
  | zero =>
    show basePollInterval ≤ maxPollInterval
    norm_num [basePollInterval, maxPollInterval]
  | succ n ih => exact min_le_right _ _

/-- C7: a polling sequence's intervals start at the base value 2, every
successive interval (produced by the update `nextInterval`, the exact
update `pollLoop` and `pollChunk` apply after each iteration) is at
least the previous one, and no interval ever exceeds the maximum 5. -/
theorem c7_backoff_monotone_capped (n : Nat) :
    pollSeq 0 = 2 ∧ basePollInterval = 2 ∧ maxPollInterval = 5 ∧
    pollSeq (n + 1) = nextInterval (pollSeq n) ∧
    pollSeq n ≤ pollSeq (n + 1) ∧ pollSeq n ≤ 5 := by
  refine ⟨rfl, rfl, rfl, rfl, ?_, ?_⟩
  · show pollSeq n ≤ nextInterval (pollSeq n)
    refine le_min ?_ (pollSeq_le_max n)
    have h : (0 : ℚ) ≤ pollIncrement := by norm_num [pollIncrement]
    linarith
  · exact pollSeq_le_max n

theorem gFillStep_k (acc : GRMap × St) (res : Jobj) :
    (gFillStep acc res).2.k = acc.2.k := by
  unfold gFillStep
  cases h : dget res "verificationId" with
  | none => rfl
  | some v =>
    cases v with
    | s w => by_cases hw : w = "" <;> simp [hw, cbCall]
    | n w => rfl
    | b w => rfl
    | null => rfl

theorem gFill_foldl_k (rs : List Jobj) : ∀ (acc : GRMap × St),
    (rs.foldl gFillStep acc).2.k = acc.2.k := by
  induction rs with
  | nil => intro acc; rfl
  | cons res rest ih =>
    intro acc
    rw [List.foldl_cons, ih, gFillStep_k]

/-- The concrete `/verify/batch` response falsifying C9: HTTP 200 with
one result record even though no identifier was submitted. -/
def brC9 : BatchResp :=
  .http 200 "" (some ⟨some [[("verificationId", JVal.s "x"),
                             ("success", JVal.b true)]], []⟩)

/-- C9 counterexample: the google `verify_batch` with an empty input
list still performs one network call (the POST to `/verify/batch` is
unconditional), and when the remote response carries a result record it
even returns a non-empty mapping. -/
theorem c9_counterexample :
    (verify_batch_g brC9 [] st0).2.k = 1 ∧
    (verify_batch_g brC9 [] st0).1 =
      Except.ok [("x", ⟨"success", JVal.s "",
        some [("verificationId", JVal.s "x"), ("success", JVal.b true)]⟩)] ∧
    ([("x", (⟨"success", JVal.s "",
        some [("verificationId", JVal.s "x"),
              ("success", JVal.b true)]⟩ : GRec))] : GRMap) ≠ [] := by
  refine ⟨rfl, rfl, ?_⟩
  decide

/-- C9 amended: the system variant's `verify_batch` on an empty
identifier list returns the empty mapping with the state untouched (zero
network calls, no callbacks, quota unchanged); the google variant always
consumes exactly one network call, even on empty input, and with an
empty input it returns one entry per (string-identified) record of the
remote response — the empty mapping only when the response carries
none. -/
theorem c9_empty_batch (o : Oracle) (fuel : Nat) (st : St) (br : BatchResp) :
    verify_batch o fuel [] st = (Except.ok (some ([] : RMap)), st) ∧
    (verify_batch_g br [] st).2.k = st.k + 1 := by
  constructor
  · rfl
  · cases br with
    | exn e => rfl
    | http code text body =>
      by_cases hc : code = 200
      · subst hc
        cases body with
        | none => rfl
        | some bb =>
          show (gBatchFill (bb.results.getD []) _).2.k = st.k + 1
          rw [gBatchFill, gFill_foldl_k]
      · simp [verify_batch_g, hc]

theorem gssQuota_spec (o : Oracle) (result : Jobj) (st : St) :
    (gssQuota o result st).2.k = st.k + 1 ∧
    dget (gssQuota o result st).1 "status" = dget result "status" := by
  unfold gssQuota netCall
  cases h : o st.k with
  | exn e => simp
  | http code text body =>
    by_cases hc : code = 200
    · subst hc
      cases body with
      | none => simp
      | some d =>
        simp [saveQuotaToDb, dget_dset_ne _ "current_quota" "status" _ (by decide)]
    · simp [hc]

/-- The concrete probe run falsifying C2: `/upstream/status` answers 200
with `available: false`; any further request raises. -/
def oC2 : Oracle := fun i =>
  match i with
  | 0 => .http 200 "" (some [("available", JVal.b false)])
  | _ => .exn "q"

/-- C2 counterexample: when `/upstream/status` returns `available:false`
the probe does report `status = error`, but it still issues the `/quota`
request — two network calls are consumed, not one — contradicting
"performs no request to the /quota endpoint". -/
theorem c2_counterexample :
    (get_system_status oC2 st0).2.k = 2 ∧
    (get_system_status oC2 st0).1 =
      Except.ok [("status", JVal.s "error"), ("availableSlots", JVal.n 100),
                 ("activeJobs", JVal.n 0), ("maxConcurrent", JVal.n 10),
                 ("message", JVal.s "Upstream unavailable")] := by
  constructor
  · rfl
  · rfl

/-- C2 amended: only a raised upstream request short-circuits the probe
(status `error`, exactly one network call, `/quota` skipped); when
`/upstream/status` parses with falsy `available`, or answers non-200,
the probe still reports `status = error` but the `/quota` request is
issued anyway (exactly two network calls). -/
theorem c2_probe_error_paths (o : Oracle) (st : St) :
    (∀ e, o st.k = .exn e →
      (get_system_status o st).2.k = st.k + 1 ∧
      ∃ r, (get_system_status o st).1 = .ok r ∧
        dget r "status" = some (JVal.s "error")) ∧
    (∀ text d, o st.k = .http 200 text (some d) →
      truthy (dget d "available") = false →
      (get_system_status o st).2.k = st.k + 2 ∧
      ∃ r, (get_system_status o st).1 = .ok r ∧
        dget r "status" = some (JVal.s "error")) ∧
    (∀ code text body, o st.k = .http code text body → code ≠ 200 →
      (get_system_status o st).2.k = st.k + 2 ∧
      ∃ r, (get_system_status o st).1 = .ok r ∧
        dget r "status" = some (JVal.s "error")) := by
  have hbase : ∀ m : JVal,
      dget (dset (dset [("status", JVal.s "unknown"), ("availableSlots", JVal.n 100),
                        ("activeJobs", JVal.n 0), ("maxConcurrent", JVal.n 10)]
                    "status" (JVal.s "error")) "message" m) "status" =
        some (JVal.s "error") := by
    intro m
    rw [dget_dset_ne _ "message" "status" _ (by decide), dget_dset_self]
  refine ⟨?_, ?_, ?_⟩
  · intro e he
    have h1 : get_system_status o st =
        (.ok (dset (dset [("status", JVal.s "unknown"), ("availableSlots", JVal.n 100),
                          ("activeJobs", JVal.n 0), ("maxConcurrent", JVal.n 10)]
                      "status" (JVal.s "error")) "message"
                (JVal.s ("Connection error: " ++ e))),
         { st with k := st.k + 1 }) := by
      simp [get_system_status, netCall, he]
    rw [h1]
    exact ⟨rfl, _, rfl, hbase _⟩
  · intro text d hd hav
    have h1 : get_system_status o st =
        (.ok (gssQuota o
            (dset (dset [("status", JVal.s "unknown"), ("availableSlots", JVal.n 100),
                        ("activeJobs", JVal.n 0), ("maxConcurrent", JVal.n 10)]
                    "status" (JVal.s "error")) "message"
              (dgetD d "error" (JVal.s "Upstream unavailable")))
            { st with k := st.k + 1 }).1,
         (gssQuota o
            (dset (dset [("status", JVal.s "unknown"), ("availableSlots", JVal.n 100),
                        ("activeJobs", JVal.n 0), ("maxConcurrent", JVal.n 10)]
                    "status" (JVal.s "error")) "message"
              (dgetD d "error" (JVal.s "Upstream unavailable")))
            { st with k := st.k + 1 }).2) := by
      simp [get_system_status, netCall, hd, hav]
    obtain ⟨hk, hs⟩ := gssQuota_spec o
      (dset (dset [("status", JVal.s "unknown"), ("availableSlots", JVal.n 100),
                   ("activeJobs", JVal.n 0), ("maxConcurrent", JVal.n 10)]
              "status" (JVal.s "error")) "message"
        (dgetD d "error" (JVal.s "Upstream unavailable")))
      { st with k := st.k + 1 }
    rw [h1]
    refine ⟨by rw [hk], _, rfl, ?_⟩
    rw [hs]
    exact hbase _
  · intro code text body hb hc
    have h1 : get_system_status o st =
        (.ok (gssQuota o
            (dset (dset [("status", JVal.s "unknown"), ("availableSlots", JVal.n 100),
                        ("activeJobs", JVal.n 0), ("maxConcurrent", JVal.n 10)]
                    "status" (JVal.s "error")) "message"
              (JVal.s ("Upstream check failed: " ++ toString code)))
            { st with k := st.k + 1 }).1,
         (gssQuota o
            (dset (dset [("status", JVal.s "unknown"), ("availableSlots", JVal.n 100),
                        ("activeJobs", JVal.n 0), ("maxConcurrent", JVal.n 10)]
                    "status" (JVal.s "error")) "message"
              (JVal.s ("Upstream check failed: " ++ toString code)))
            { st with k := st.k + 1 }).2) := by
      simp [get_system_status, netCall, hb, hc]
    obtain ⟨hk, hs⟩ := gssQuota_spec o
      (dset (dset [("status", JVal.s "unknown"), ("availableSlots", JVal.n 100),
                   ("activeJobs", JVal.n 0), ("maxConcurrent", JVal.n 10)]
              "status" (JVal.s "error")) "message"
        (JVal.s ("Upstream check failed: " ++ toString code)))
      { st with k := st.k + 1 }
    rw [h1]
    refine ⟨by rw [hk], _, rfl, ?_⟩
    rw [hs]
    exact hbase _

/-- Witness for the amended C2 theorem at a concrete dead upstream. -/
theorem c2_probe_error_paths_witness :
    (get_system_status (fun _ => NetResp.exn "refused") st0).2.k = 1 ∧
    ∃ r, (get_system_status (fun _ => NetResp.exn "refused") st0).1 = .ok r ∧
      dget r "status" = some (JVal.s "error") :=
  (c2_probe_error_paths (fun _ => NetResp.exn "refused") st0).1 "refused" rfl

theorem chunks50_join_aux : ∀ (n : Nat) (l : List String), l.length ≤ n →
    (chunks50 l).flatten = l := by
  intro n
  induction n with
  | zero =>
    intro l h
    have hl : l = [] := List.length_eq_zero.mp (Nat.le_zero.mp h)
    subst hl
    simp
  | succ n ih =>
    intro l h
    cases l with
    | nil => simp
    | cons x t =>
      rw [chunks50_cons]
      have hd : ((x :: t).drop 50).length ≤ n := by
        simp only [List.length_drop, List.length_cons]
        simp only [List.length_cons] at h
        omega
      simp only [List.flatten_cons]
      rw [ih _ hd]
      exact List.take_append_drop 50 (x :: t)

theorem chunks50_length_aux : ∀ (n : Nat) (l : List String), l.length ≤ n →
    (chunks50 l).length = (l.length + 49) / 50 := by
  intro n
  induction n with
  | zero =>
    intro l h
    have hl : l = [] := List.length_eq_zero.mp (Nat.le_zero.mp h)
    subst hl
    rfl
  | succ n ih =>
    intro l h
    cases l with
    | nil => rfl
    | cons x t =>
      rw [chunks50_cons]
      have hd : ((x :: t).drop 50).length ≤ n := by
        simp only [List.length_drop, List.length_cons]
        simp only [List.length_cons] at h
        omega
      simp only [List.length_cons, ih _ hd, List.length_drop]
      omega

theorem chunks50_size_aux : ∀ (n : Nat) (l : List String), l.length ≤ n →
    ∀ c ∈ chunks50 l, c.length ≤ 50 := by
  intro n
  induction n with
  | zero =>
    intro l h c hc
    have hl : l = [] := List.length_eq_zero.mp (Nat.le_zero.mp h)
    subst hl
    simp at hc
  | succ n ih =>
    intro l h c hc
    cases l with
    | nil => simp at hc
    | cons x t =>
      rw [chunks50_cons] at hc
      have hd : ((x :: t).drop 50).length ≤ n := by
        simp only [List.length_drop, List.length_cons]
        simp only [List.length_cons] at h
        omega
      rcases List.mem_cons.mp hc with rfl | hc2
      · rw [List.length_take]
        exact min_le_left _ _
      · exact ih _ hd c hc2

theorem chunks50_dropLast_aux : ∀ (n : Nat) (l : List String), l.length ≤ n →
    ∀ c ∈ (chunks50 l).dropLast, c.length = 50 := by
  intro n
  induction n with
  | zero =>
    intro l h c hc
    have hl : l = [] := List.length_eq_zero.mp (Nat.le_zero.mp h)
    subst hl
    simp at hc
  | succ n ih =>
    intro l h c hc
    cases l with
    | nil => simp at hc
    | cons x t =>
      rw [chunks50_cons] at hc
      cases hd50 : (x :: t).drop 50 with
      | nil =>
        rw [hd50] at hc
        simp at hc
      | cons y s =>
        rw [hd50, chunks50_cons] at hc
        rw [List.dropLast_cons₂] at hc
        rw [← chunks50_cons] at hc
        have hlen : (x :: t).length ≥ 51 := by
          have := congrArg List.length hd50
          simp only [List.length_drop, List.length_cons] at this
          simp only [List.length_cons]
          omega
        have hd : (y :: s).length ≤ n := by
          have := congrArg List.length hd50
          simp only [List.length_drop, List.length_cons] at this
          simp only [List.length_cons] at h ⊢
          omega
        rcases List.mem_cons.mp hc with rfl | hc2
        · rw [List.length_take]
          simp only [List.length_cons] at hlen ⊢
          omega
        · exact ih _ hd c hc2

/-- C8: for N input identifiers and chunk size 50, `verify_batch`'s
slicing produces exactly ceil(N/50) chunks; each chunk has size at most
50; only the last may be smaller (every non-final chunk has size exactly
50); and the concatenation of the chunks in processing order is the input
list.  `processChunks` consumes this list strictly in order. -/
theorem c8_chunk_partition (l : List String) :
    (chunks50 l).length = (l.length + 49) / 50 ∧
    (chunks50 l).flatten = l ∧
    (∀ c, c ∈ chunks50 l → c.length ≤ 50) ∧
    (∀ c, c ∈ (chunks50 l).dropLast → c.length = 50) :=
  ⟨chunks50_length_aux l.length l (le_refl _),
   chunks50_join_aux l.length l (le_refl _),
   chunks50_size_aux l.length l (le_refl _),
   chunks50_dropLast_aux l.length l (le_refl _)⟩

/-- Witness for C8 at a concrete 120-identifier input: three chunks, the
trailing one of size 20, the non-final ones of size exactly 50. -/
theorem c8_chunk_partition_witness :
    (chunks50 (List.replicate 120 "v")).length = 3 ∧
    (chunks50 (List.replicate 120 "v")).flatten = List.replicate 120 "v" ∧
    (List.replicate 20 "v" : List String).length ≤ 50 ∧
    (List.replicate 50 "v" : List String).length = 50 := by
  obtain ⟨h1, h2, h3, h4⟩ := c8_chunk_partition (List.replicate 120 "v")
  refine ⟨?_, h2, ?_, ?_⟩
  · rw [h1]
    simp [List.length_replicate]
  · exact h3 _ (by decide)
  · exact h4 _ (by decide)

/-- The string identifiers named by the records of a `/verify/batch`
response: exactly the keys the success loop can create. -/
def gvids (rs : List Jobj) : List String :=
  rs.filterMap (fun res =>
    match dget res "verificationId" with
    | some (JVal.s v) => if v = "" then none else some v
    | _ => none)

theorem gFill_none (rs : List Jobj) : ∀ (acc : GRMap × St) (vid : String),
    dget acc.1 vid = none → vid ∉ gvids rs →
    dget (rs.foldl gFillStep acc).1 vid = none := by
  induction rs with
  | nil => intro acc vid h _; exact h
  | cons res rest ih =>
    intro acc vid h hvid
    rw [List.foldl_cons]
    refine ih _ vid ?_ ?_
    · unfold gFillStep
      cases hres : dget res "verificationId" with
      | none => exact h
      | some v =>
        cases v with
        | s w =>
          by_cases hw : w = ""
          · simp [hw, h]
          · have hne : w ≠ vid := by
              intro hh
              apply hvid
              subst hh
              simp [gvids, List.filterMap_cons, hres, hw]
            simp only [if_neg hw]
            rw [dget_dset_ne _ w vid _ hne]
            exact h
        | n w => exact h
        | b w => exact h
        | null => exact h
    · intro hmem
      apply hvid
      unfold gvids at hmem ⊢
      rw [List.filterMap_cons]
      cases hres : dget res "verificationId" with
      | none => simpa [hres] using hmem
      | some v =>
        cases v with
        | s w =>
          by_cases hw : w = ""
          · simpa [hres, hw] using hmem
          · simp only [hres, if_neg hw]
            exact List.mem_cons_of_mem _ hmem
        | n w => simpa [hres] using hmem
        | b w => simpa [hres] using hmem
        | null => simpa [hres] using hmem

theorem gFillMissing_preserve (ids : List String) : ∀ (m : GRMap) (vid : String)
    (w : GRec), dget m vid = some w → dget (gFillMissing ids m) vid = some w := by
  induction ids with
  | nil => intro m vid w h; exact h
  | cons a rest ih =>
    intro m vid w h
    show dget (gFillMissing rest (gMissStep m a)) vid = some w
    refine ih _ vid w ?_
    unfold gMissStep
    cases ha : dget m a with
    | some _ => exact h
    | none =>
      have hne : a ≠ vid := by
        intro hh
        rw [hh, h] at ha
        exact Option.noConfusion ha
      rw [dget_dset_ne _ a vid _ hne]
      exact h

theorem gFillMissing_fills (ids : List String) : ∀ (m : GRMap) (vid : String),
    dget m vid = none → vid ∈ ids →
    dget (gFillMissing ids m) vid =
      some ⟨"error", JVal.s "API未返回结果", none⟩ := by
  induction ids with
  | nil => intro m vid _ hin; exact absurd hin (List.not_mem_nil vid)
  | cons a rest ih =>
    intro m vid h hin
    show dget (gFillMissing rest (gMissStep m a)) vid = _
    by_cases hav : a = vid
    · subst hav
      have hstep : dget (gMissStep m a) a =
          some ⟨"error", JVal.s "API未返回结果", none⟩ := by
        unfold gMissStep
        rw [h, dget_dset_self]
      exact gFillMissing_preserve rest _ a _ hstep
    · have hin2 : vid ∈ rest := by
        rcases List.mem_cons.mp hin with hh | hh
        · exact absurd hh.symm hav
        · exact hh
      refine ih _ vid ?_ hin2
      unfold gMissStep
      cases ha : dget m a with
      | some _ => exact h
      | none =>
        rw [dget_dset_ne _ a vid _ hav]
        exact h

/-- The concrete `/verify/batch` response of the C3 scenario: HTTP 200,
one record `{verificationId: v1, currentStep: success, message: ok}`. -/
def brC3 : BatchResp :=
  .http 200 "" (some ⟨some [[("verificationId", JVal.s "v1"),
                             ("currentStep", JVal.s "success"),
                             ("message", JVal.s "ok")]], []⟩)

/-- The mapping the claim expects for the C3 scenario. -/
def c3Claimed : GRMap :=
  [("v1", ⟨"success", JVal.s "ok", none⟩),
   ("v2", ⟨"error", JVal.s "No response from API", none⟩)]

/-- C3 counterexample: on the claim's scenario the code keys success off
the `success` boolean (absent here), so `v1` is marked `error` (with the
raw record kept under `data`), and the missing `v2` gets the message
`API未返回结果`, not "No response from API" — the returned mapping is not
the claimed one. -/
theorem c3_counterexample :
    (verify_batch_g brC3 ["v1", "v2"] st0).1 =
      Except.ok
        [("v1", ⟨"error", JVal.s "ok",
           some [("verificationId", JVal.s "v1"),
                 ("currentStep", JVal.s "success"), ("message", JVal.s "ok")]⟩),
         ("v2", ⟨"error", JVal.s "API未返回结果", none⟩)] ∧
    (verify_batch_g brC3 ["v1", "v2"] st0).1 ≠ Except.ok c3Claimed := by
  refine ⟨rfl, ?_⟩
  intro h
  rw [(rfl : (verify_batch_g brC3 ["v1", "v2"] st0).1 = _)] at h
  exact absurd (Except.ok.inj h) (by decide)

/-- C3 corrected: on a parsed 200 `/verify/batch` response, every input
identifier absent from the response's (string) `verificationId` set is
mapped to `{currentStep: error, message: API未返回结果}`; identifiers
present in the response are mapped through the `success` flag
(truthiness), not through the record's `currentStep` field, with the raw
record kept under `data`. -/
theorem c3_batch_missing_marked (ids : List String) (text : String)
    (bb : BatchBody) (st : St) (vid : String)
    (hin : vid ∈ ids) (habs : vid ∉ gvids (bb.results.getD [])) :
    (verify_batch_g (.http 200 text (some bb)) ids st).1 =
      .ok (gFillMissing ids
            (gBatchFill (bb.results.getD []) { st with k := st.k + 1 }).1) ∧
    dget (gFillMissing ids
            (gBatchFill (bb.results.getD []) { st with k := st.k + 1 }).1) vid =
      some ⟨"error", JVal.s "API未返回结果", none⟩ := by
  constructor
  · rfl
  · refine gFillMissing_fills ids _ vid ?_ hin
    exact gFill_none _ _ vid rfl habs

/-- Witness for the corrected C3 theorem at the scenario input: `v2` is
absent from the response and gets the error / `API未返回结果` record. -/
theorem c3_batch_missing_marked_witness :
    (verify_batch_g (.http 200 "" (some ⟨some [[("verificationId", JVal.s "v1"),
        ("currentStep", JVal.s "success"), ("message", JVal.s "ok")]], []⟩))
        ["v1", "v2"] st0).1 =
      .ok (gFillMissing ["v1", "v2"]
            (gBatchFill ([[("verificationId", JVal.s "v1"),
              ("currentStep", JVal.s "success"), ("message", JVal.s "ok")]])
              { st0 with k := 1 }).1) ∧
    dget (gFillMissing ["v1", "v2"]
            (gBatchFill ([[("verificationId", JVal.s "v1"),
              ("currentStep", JVal.s "success"), ("message", JVal.s "ok")]])
              { st0 with k := 1 }).1) "v2" =
      some ⟨"error", JVal.s "API未返回结果", none⟩ := by
  have h := c3_batch_missing_marked ["v1", "v2"] ""
    ⟨some [[("verificationId", JVal.s "v1"), ("currentStep", JVal.s "success"),
      ("message", JVal.s "ok")]], []⟩ st0 "v2" (by decide) (by decide)
  simpa using h

@[simp] theorem mergeFields_nil (r : Jobj) : mergeFields r [] = r := rfl

@[simp] theorem mergeFields_cons (r : Jobj) (k1 : String) (v1 : JVal) (t : Jobj) :
    mergeFields r ((k1, v1) :: t) =
      mergeFields (if k1 ∈ excludedKeys then r else dset r k1 v1) t := rfl

theorem mergeFields_not_mem (d : Jobj) : ∀ (r : Jobj) (k : String),
    k ∉ dkeys d → dget (mergeFields r d) k = dget r k := by
  induction d with
  | nil => intro r k _; rfl
  | cons kv t ih =>
    intro r k hk
    obtain ⟨k1, v1⟩ := kv
    simp only [dkeys, List.map_cons, List.mem_cons, not_or] at hk
    obtain ⟨hk1, hk2⟩ := hk
    rw [mergeFields_cons, ih _ _ (by simpa [dkeys] using hk2)]
    by_cases he : k1 ∈ excludedKeys
    · rw [if_pos he]
    · rw [if_neg he, dget_dset_ne _ k1 k _ (fun hh => hk1 hh.symm)]

theorem mergeFields_excluded (d : Jobj) : ∀ (r : Jobj) (k : String),
    k ∈ excludedKeys → dget (mergeFields r d) k = dget r k := by
  induction d with
  | nil => intro r k _; rfl
  | cons kv t ih =>
    intro r k hk
    obtain ⟨k1, v1⟩ := kv
    rw [mergeFields_cons, ih _ _ hk]
    by_cases he : k1 ∈ excludedKeys
    · rw [if_pos he]
    · rw [if_neg he, dget_dset_ne _ k1 k _ (fun hh => he (hh ▸ hk))]

theorem mergeFields_mem (d : Jobj) : ∀ (r : Jobj) (k : String),
    (dkeys d).Nodup → k ∈ dkeys d → k ∉ excludedKeys →
    dget (mergeFields r d) k = dget d k := by
  induction d with
  | nil =>
    intro r k _ hmem _
    simp [dkeys] at hmem
  | cons kv t ih =>
    intro r k hnd hmem hex
    obtain ⟨k1, v1⟩ := kv
    simp only [dkeys, List.map_cons, List.nodup_cons] at hnd
    obtain ⟨hk1t, hndt⟩ := hnd
    by_cases hk : k1 = k
    · subst hk
      rw [mergeFields_cons, if_neg hex,
        mergeFields_not_mem t _ _ (by simpa [dkeys] using hk1t),
        dget_dset_self]
      simp
    · have hmt : k ∈ dkeys t := by
        simp only [dkeys, List.map_cons, List.mem_cons] at hmem
        rcases hmem with hh | hh
        · exact absurd hh.symm hk
        · simpa [dkeys] using hh
      rw [mergeFields_cons]
      rw [ih _ k (by simpa [dkeys] using hndt) hmt hex]
      simp [hk]

/-- C6: when a status poll succeeds, `mergeStatus` — the merge used by
every poll of `verify_single` (`pollLoop`) and of the chunked shared
polling loop (`pollTask`) — copies every field of the response body into
the result verbatim except the transport-only keys `task_id`, `status`
and `api_key`, and those three keys are never written into the result
(their bindings in the result, if any, are left exactly as they were). -/
theorem c6_poll_merge_verbatim (result d : Jobj) (k : String)
    (hnd : (dkeys d).Nodup) :
    (k ∈ dkeys d → k ∉ excludedKeys → dget (mergeStatus result d) k = dget d k) ∧
    (k ∈ excludedKeys → dget (mergeStatus result d) k = dget result k) := by
  constructor
  · intro hmem hex
    unfold mergeStatus
    by_cases hmsg : k = "message"
    · subst hmsg
      rw [dget_dset_self]
      obtain ⟨v, hv⟩ := (dget_isSome_iff_mem_dkeys d "message").mpr hmem
      simp [msgOf, dgetD, hv]
    · rw [dget_dset_ne _ "message" k _ (fun hh => hmsg hh.symm)]
      by_cases hcs : k = "currentStep"
      · subst hcs
        rw [dget_dset_self]
        obtain ⟨v, hv⟩ := (dget_isSome_iff_mem_dkeys d "currentStep").mpr hmem
        simp [stepOf, dgetD, hv]
      · rw [dget_dset_ne _ "currentStep" k _ (fun hh => hcs hh.symm)]
        exact mergeFields_mem d result k hnd hmem hex
  · intro hex
    unfold mergeStatus
    have hms : "message" ≠ k := by
      intro hh
      rw [← hh] at hex
      revert hex
      decide
    have hcs : "currentStep" ≠ k := by
      intro hh
      rw [← hh] at hex
      revert hex
      decide
    rw [dget_dset_ne _ "message" k _ hms, dget_dset_ne _ "currentStep" k _ hcs]
    exact mergeFields_excluded d result k hex

/-- Witness for C6 at a concrete poll body: the extra field `foo` is
copied verbatim, the excluded key `status` is not written. -/
theorem c6_poll_merge_verbatim_witness :
    dget (mergeStatus [] [("foo", JVal.n 1), ("status", JVal.s "completed")]) "foo" =
      dget [("foo", JVal.n 1), ("status", JVal.s "completed")] "foo" ∧
    dget (mergeStatus [] [("foo", JVal.n 1), ("status", JVal.s "completed")]) "status" =
      dget ([] : Jobj) "status" :=
  ⟨(c6_poll_merge_verbatim [] [("foo", JVal.n 1), ("status", JVal.s "completed")]
      "foo" (by decide)).1 (by decide) (by decide),
   (c6_poll_merge_verbatim [] [("foo", JVal.n 1), ("status", JVal.s "completed")]
      "status" (by decide)).2 (by decide)⟩

/-- A poll response that makes the Python iteration raise: a transport
exception, or a 200 whose body fails to parse. -/
def raisingResp : NetResp → Bool
  | .exn _ => true
  | .http code _ body => code = 200 && body.isNone

/-- A poll response on which the loop breaks: HTTP 200 with a parsed
body whose raw `status` is `completed` or `error`. -/
def terminalResp : NetResp → Bool
  | .exn _ => false
  | .http code _ body =>
    code = 200 &&
      (match body with
       | some d => statusTerminal d
       | none => false)

@[simp] theorem cbCall_k (v : Option String) (m : String) (st : St) :
    (cbCall v m st).k = st.k := rfl

theorem pollLoop_spec (o : Oracle) (vid : String)
    (h : ∀ i, raisingResp (o i) = false) :
    ∀ (fuel : Nat) (interval : ℚ) (result : Jobj) (st : St),
      ((∃ r st1, pollLoop o vid fuel interval result st = (.finished r, st1)) ↔
        ∃ j, st.k ≤ j ∧ j < st.k + fuel ∧ terminalResp (o j) = true) ∧
      (∀ e r st1, pollLoop o vid fuel interval result st ≠ (.raised e r, st1)) := by
  intro fuel
  induction fuel with
  | zero =>
    intro interval result st
    constructor
    · constructor
      · rintro ⟨r, st1, hr⟩
        exact absurd hr (by simp [pollLoop])
      · rintro ⟨j, hj1, hj2, _⟩
        omega
    · intro e r st1 hr
      simp [pollLoop] at hr
  | succ fuel ih =>
    intro interval result st
    cases hr : o st.k with
    | exn e => exact absurd (h st.k) (by simp [raisingResp, hr])
    | http code text body =>
      by_cases hc : code = 200
      · subst hc
        cases body with
        | none => exact absurd (h st.k) (by simp [raisingResp, hr])
        | some d =>
          by_cases ht : statusTerminal d = true
          · constructor
            · constructor
              · intro _
                exact ⟨st.k, le_refl _, by omega, by simp [terminalResp, hr, ht]⟩
              · intro _
                refine ⟨mergeStatus result d,
                  cbCall (some vid)
                    ("Step: " ++ jshow (stepOf d) ++ " | Msg: " ++ jshow (msgOf d))
                    { st with k := st.k + 1 }, ?_⟩
                simp [pollLoop, netCall, hr, ht]
            · intro e r st1 hq
              simp [pollLoop, netCall, hr, ht] at hq
          · have hstep : pollLoop o vid (fuel + 1) interval result st =
                pollLoop o vid fuel (nextInterval interval) (mergeStatus result d)
                  (cbCall (some vid)
                    ("Step: " ++ jshow (stepOf d) ++ " | Msg: " ++ jshow (msgOf d))
                    { st with k := st.k + 1 }) := by
              simp [pollLoop, netCall, hr, ht]
            obtain ⟨ih1, ih2⟩ := ih (nextInterval interval) (mergeStatus result d)
              (cbCall (some vid)
                ("Step: " ++ jshow (stepOf d) ++ " | Msg: " ++ jshow (msgOf d))
                { st with k := st.k + 1 })
            simp only [cbCall_k] at ih1
            rw [hstep]
            constructor
            · rw [ih1]
              constructor
              · rintro ⟨j, hj1, hj2, hT⟩
                exact ⟨j, by omega, by omega, hT⟩
              · rintro ⟨j, hj1, hj2, hT⟩
                by_cases hj : j = st.k
                · subst hj
                  rw [hr] at hT
                  simp [terminalResp, ht] at hT
                · exact ⟨j, by omega, by omega, hT⟩
            · exact ih2
      · have hstep : pollLoop o vid (fuel + 1) interval result st =
            pollLoop o vid fuel (nextInterval interval) result
              { st with k := st.k + 1 } := by
          simp [pollLoop, netCall, hr, hc]
        obtain ⟨ih1, ih2⟩ := ih (nextInterval interval) result { st with k := st.k + 1 }
        have hk : ({ st with k := st.k + 1 } : St).k = st.k + 1 := rfl
        rw [hk] at ih1
        rw [hstep]
        constructor
        · rw [ih1]
          constructor
          · rintro ⟨j, hj1, hj2, hT⟩
            exact ⟨j, by omega, by omega, hT⟩
          · rintro ⟨j, hj1, hj2, hT⟩
            by_cases hj : j = st.k
            · subst hj
              rw [hr] at hT
              simp [terminalResp, hc] at hT
            · exact ⟨j, by omega, by omega, hT⟩
        · exact ih2

/-- The concrete run falsifying C4: the task is created, then the first
status poll raises a transport error; no response in the sequence is a
terminal status response, yet `verify_single` returns. -/
def oC4 : Oracle := fun i =>
  match i with
  | 0 => .http 200 "" (some [("task_id", JVal.s "t1")])
  | 1 => .exn "boom"
  | _ => .exn "x"

/-- C4 counterexample: with `oC4` no poll ever returns HTTP 200 with
status `completed` or `error`, yet `verify_single` terminates: the
transport failure raised during the first poll escapes the `while` loop
into the operation's outer handler, which returns an `error` result —
contradicting "transport failures ... never terminate the loop" and
"verify_single never returns". -/
theorem c4_counterexample :
    (∀ i, terminalResp (oC4 i) = false) ∧
    verify_single oC4 10 "x" st0 =
      (Except.ok (some [("currentStep", JVal.s "error"),
                        ("message", JVal.s "Connection error: boom"),
                        ("verificationId", JVal.s "x")]),
       ⟨3, [], [],
        [(some "x", "Step: pending | Msg: Creating task..."),
         (some "x", "Step: pending | Msg: Task created, waiting for processing..."),
         (some "x", "Step: error | Msg: Connection error: boom")], 0⟩) := by
  constructor
  · intro i
    rcases i with _ | _ | i <;> rfl
  · rfl

/-- C4 amended: the polling loop of `verify_single` has no iteration or
time cap, and non-200 poll responses never terminate it; but a transport
failure (or unparsable 200 body) during a poll raises out of the loop —
it does terminate `verify_single`, with an error result.  In the absence
of such raising responses the loop finishes exactly when some poll
returns HTTP 200 with raw status `completed` or `error`, never raises,
and with no such terminal response it runs forever (for every fuel the
model reports the loop still running). -/
theorem c4_unbounded_polling (o : Oracle) (vid : String) (fuel : Nat)
    (interval : ℚ) (result : Jobj) (st : St)
    (h : ∀ i, raisingResp (o i) = false) :
    ((∃ r st1, pollLoop o vid fuel interval result st = (.finished r, st1)) ↔
      ∃ j, st.k ≤ j ∧ j < st.k + fuel ∧ terminalResp (o j) = true) ∧
    (∀ e r st1, pollLoop o vid fuel interval result st ≠ (.raised e r, st1)) ∧
    ((∀ j, terminalResp (o j) = false) →
      (pollLoop o vid fuel interval result st).1 = .fuelOut) := by
  obtain ⟨h1, h2⟩ := pollLoop_spec o vid h fuel interval result st
  refine ⟨h1, h2, ?_⟩
  intro hnone
  cases hp : pollLoop o vid fuel interval result st with
  | mk po st1 =>
    cases po with
    | raised e r => exact absurd hp (h2 e r st1)
    | finished r =>
        obtain ⟨j, _, _, hT⟩ := h1.mp ⟨r, st1, hp⟩
        rw [hnone j] at hT
        exact Bool.noConfusion hT
    | fuelOut => rfl

/-- Witness for the amended C4 theorem: a remote that answers every poll
with a terminal `completed` status makes the loop finish within one
iteration. -/
theorem c4_unbounded_polling_witness :
    ∃ r st1, pollLoop (fun _ => .http 200 "" (some [("status", JVal.s "completed")]))
      "x" 1 basePollInterval [] st0 = (.finished r, st1) :=
  ((c4_unbounded_polling (fun _ => .http 200 "" (some [("status", JVal.s "completed")]))
      "x" 1 basePollInterval [] st0 (fun _ => rfl)).1).mpr
    ⟨0, by decide, by decide, by decide⟩

theorem gss_ok (o : Oracle) (st : St) : ∃ v, (get_system_status o st).1 = .ok v := by
  unfold get_system_status netCall
  rcases o st.k with e | ⟨code, text, body⟩
  · exact ⟨_, rfl⟩
  · dsimp only
    split
    · rcases body with _ | d
      · exact ⟨_, rfl⟩
      · dsimp only
        split
        · exact ⟨_, rfl⟩
        · exact ⟨_, rfl⟩
    · exact ⟨_, rfl⟩

theorem verify_single_ok (o : Oracle) (fuel : Nat) (vid : String) (st : St) :
    ∃ v, (verify_single o fuel vid st).1 = .ok v := by
  unfold verify_single
  split
  · exact ⟨_, rfl⟩
  · dsimp only
    split
    · exact ⟨_, rfl⟩
    · exact ⟨_, rfl⟩

theorem verify_batch_ok (o : Oracle) (fuel : Nat) (ids : List String) (st : St) :
    ∃ v, (verify_batch o fuel ids st).1 = .ok v := by
  unfold verify_batch
  split
  · exact ⟨_, rfl⟩
  · dsimp only
    split
    · exact ⟨_, rfl⟩
    · exact ⟨_, rfl⟩

theorem redeem_code_ok (o : Oracle) (st : St) : ∃ v, (redeem_code o st).1 = .ok v := by
  unfold redeem_code netCall
  rcases o st.k with e | ⟨code, text, body⟩
  · exact ⟨_, rfl⟩
  · rcases body with _ | d
    · exact ⟨_, rfl⟩
    · dsimp only
      split
      · exact ⟨_, rfl⟩
      · exact ⟨_, rfl⟩
      · split
        · exact ⟨_, rfl⟩
        · exact ⟨_, rfl⟩

theorem cancel_verification_ok (o : Oracle) (st : St) :
    ∃ v, (cancel_verification o st).1 = .ok v := by
  unfold cancel_verification netCall
  rcases o st.k with e | ⟨code, text, body⟩
  · exact ⟨_, rfl⟩
  · rcases body with _ | d
    · exact ⟨_, rfl⟩
    · exact ⟨_, rfl⟩

theorem gss_g_ok (o : Oracle) (st : St) :
    ∃ v, (get_system_status_g o st).1 = .ok v := by
  unfold get_system_status_g netCall
  rcases o st.k with e | ⟨code, text, body⟩
  · exact ⟨_, rfl⟩
  · dsimp only
    split
    · rcases body with _ | d
      · exact ⟨_, rfl⟩
      · exact ⟨_, rfl⟩
    · exact ⟨_, rfl⟩

theorem verify_batch_g_ok (br : BatchResp) (ids : List String) (st : St) :
    ∃ v, (verify_batch_g br ids st).1 = .ok v := by
  unfold verify_batch_g
  rcases br with e | ⟨code, text, body⟩
  · exact ⟨_, rfl⟩
  · dsimp only
    split
    · rcases body with _ | bb
      · exact ⟨_, rfl⟩
      · exact ⟨_, rfl⟩
    · exact ⟨_, rfl⟩

theorem redeem_g_ok (o : Oracle) (st : St) : ∃ v, (redeem_g o st).1 = .ok v := by
  unfold redeem_g netCall
  rcases o st.k with e | ⟨code, text, body⟩
  · exact ⟨_, rfl⟩
  · dsimp only
    split
    · rcases body with _ | d
      · exact ⟨_, rfl⟩
      · exact ⟨_, rfl⟩
    · rcases body with _ | j
      · exact ⟨_, rfl⟩
      · exact ⟨_, rfl⟩

/-- C5: for every input and every remote behaviour — transport failures,
arbitrary HTTP statuses, unparsable bodies, missing fields — each public
operation of both variants returns a result record: the embedded
operation never yields `Except.error`, i.e. the handler structure of the
source catches every raising site. -/
theorem c5_total_no_raise (o : Oracle) (fuel : Nat) (vid : String)
    (ids : List String) (br : BatchResp) (st : St) :
    (∃ v, (get_system_status o st).1 = .ok v) ∧
    (∃ v, (verify_single o fuel vid st).1 = .ok v) ∧
    (∃ v, (verify_batch o fuel ids st).1 = .ok v) ∧
    (∃ v, (redeem_code o st).1 = .ok v) ∧
    (∃ v, (cancel_verification o st).1 = .ok v) ∧
    (∃ v, (get_system_status_g o st).1 = .ok v) ∧
    (∃ v, (verify_batch_g br ids st).1 = .ok v) ∧
    (∃ v, (redeem_g o st).1 = .ok v) ∧
    (∃ v, (cancel_verification_g st).1 = .ok v) :=
  ⟨gss_ok o st, verify_single_ok o fuel vid st, verify_batch_ok o fuel ids st,
   redeem_code_ok o st, cancel_verification_ok o st, gss_g_ok o st,
   verify_batch_g_ok br ids st, redeem_g_ok o st, ⟨_, rfl⟩⟩

theorem dset_dset_same {β : Type} (d : Dict β) (q : String) (a b : β) :
    dset (dset d q a) q b = dset d q b := by
  induction d with
  | nil => simp
  | cons p t ih =>
    obtain ⟨k, w⟩ := p
    by_cases h : k = q <;> simp [h, ih]

theorem dget_dset_isSome {β : Type} (d : Dict β) (q w : String) (v : β) :
    dget (dset d q v) w ≠ none ↔ dget d w ≠ none ∨ w = q := by
  by_cases h : q = w
  · subst h
    simp [dget_dset_self]
  · rw [dget_dset_ne _ _ _ _ h]
    have h2 : ¬ w = q := fun hh => h hh.symm
    simp [h2]

/-- A result record in a terminal step: its `currentStep` is the string
`success`, `error`, or `completed`. -/
def terminalStep (rec : Jobj) : Prop :=
  dget rec "currentStep" = some (JVal.s "success") ∨
  dget rec "currentStep" = some (JVal.s "error") ∨
  dget rec "currentStep" = some (JVal.s "completed")

/-- The oracle hypothesis under which the chunked results are terminal:
every 200 status response whose raw `status` is terminal either omits
`currentStep` or sets it to one of the terminal step strings. -/
def stepFieldOK (r : NetResp) : Prop :=
  ∀ code text d, r = NetResp.http code text (some d) → code = 200 →
    statusTerminal d = true →
    dget d "currentStep" = none ∨
    dget d "currentStep" = some (JVal.s "success") ∨
    dget d "currentStep" = some (JVal.s "error") ∨
    dget d "currentStep" = some (JVal.s "completed")

theorem mergeStatus_currentStep (r d : Jobj) :
    dget (mergeStatus r d) "currentStep" = some (stepOf d) := by
  unfold mergeStatus
  rw [dget_dset_ne _ "message" "currentStep" _ (by decide), dget_dset_self]

theorem statusTerminal_cases (d : Jobj) (h : statusTerminal d = true) :
    statusOf d = JVal.s "completed" ∨ statusOf d = JVal.s "error" := by
  unfold statusTerminal at h
  rw [Bool.or_eq_true] at h
  rcases h with hh | hh
  · left
    cases hv : statusOf d <;> rw [hv] at hh <;> simp [jeqStr] at hh
    rw [hh]
  · right
    cases hv : statusOf d <;> rw [hv] at hh <;> simp [jeqStr] at hh
    rw [hh]

theorem terminal_merge (r d : Jobj)
    (hok : dget d "currentStep" = none ∨
      dget d "currentStep" = some (JVal.s "success") ∨
      dget d "currentStep" = some (JVal.s "error") ∨
      dget d "currentStep" = some (JVal.s "completed"))
    (ht : statusTerminal d = true) :
    terminalStep (mergeStatus r d) := by
  unfold terminalStep
  rw [mergeStatus_currentStep]
  unfold stepOf dgetD
  rcases hok with hh | hh | hh | hh
  · rw [hh]
    rcases statusTerminal_cases d ht with hs | hs <;> rw [hs] <;> simp
  · rw [hh]
    simp
  · rw [hh]
    simp
  · rw [hh]
    simp

theorem rset_dset (X : RMap) (vid k : String) (init : Jobj) (v : JVal) :
    rset (dset X vid init) vid k v = dset X vid (dset init k v) := by
  unfold rset dgetD
  rw [dget_dset_self, Option.getD_some, dset_dset_same]

theorem subError_shape (vid m : String) (X : RMap) (A : AMap) (S : St) (init : Jobj) :
    subError vid m (dset X vid init, A, S) =
      (dset X vid (dset (dset init "currentStep" (JVal.s "error")) "message" (JVal.s m)),
       A, cbCall (some vid) ("Step: error | Msg: " ++ m) S) := by
  unfold subError
  dsimp only
  rw [rset_dset, rset_dset]

theorem submitOne_shape (o : Oracle) (acc : RMap × AMap × St) (vid : String) :
    (∃ rec st1, dget rec "currentStep" = some (JVal.s "error") ∧
        submitOne o acc vid = (dset acc.1 vid rec, acc.2.1, st1)) ∨
    (∃ rec tid st1, dget rec "currentStep" = some (JVal.s "pending") ∧
        submitOne o acc vid = (dset acc.1 vid rec, dset acc.2.1 vid tid, st1)) := by
  obtain ⟨results0, active0, stA⟩ := acc
  unfold submitOne netCall
  dsimp only
  rcases o (cbCall (some vid) "Step: pending | Msg: Creating task..." stA).k with
    e | ⟨code, text, body⟩
  · left
    dsimp only
    rw [subError_shape]
    refine ⟨_, _, ?_, rfl⟩
    rw [dget_dset_ne _ "message" "currentStep" _ (by decide), dget_dset_self]
  · dsimp only
    split
    · rcases body with _ | d
      · left
        dsimp only
        rw [subError_shape]
        refine ⟨_, _, ?_, rfl⟩
        rw [dget_dset_ne _ "message" "currentStep" _ (by decide), dget_dset_self]
      · dsimp only
        split
        · right
          rw [rset_dset]
          refine ⟨_, _, _, ?_, rfl⟩
          rw [dget_dset_ne _ "message" "currentStep" _ (by decide)]
          rfl
        · left
          dsimp only
          rw [subError_shape]
          refine ⟨_, _, ?_, rfl⟩
          rw [dget_dset_ne _ "message" "currentStep" _ (by decide), dget_dset_self]
    · left
      dsimp only
      rw [subError_shape]
      refine ⟨_, _, ?_, rfl⟩
      rw [dget_dset_ne _ "message" "currentStep" _ (by decide), dget_dset_self]

theorem submitAll_spec (o : Oracle) : ∀ (chunk : List String) (acc : RMap × AMap × St),
    (dkeys acc.1).Nodup →
    (∀ w tv, dget acc.2.1 w = some tv → dget acc.1 w ≠ none) →
    (∀ w rec, dget acc.1 w = some rec → terminalStep rec ∨ dget acc.2.1 w ≠ none) →
    (dkeys (chunk.foldl (submitOne o) acc).1).Nodup ∧
    (∀ w tv, dget (chunk.foldl (submitOne o) acc).2.1 w = some tv →
        dget (chunk.foldl (submitOne o) acc).1 w ≠ none) ∧
    (∀ w rec, dget (chunk.foldl (submitOne o) acc).1 w = some rec →
        terminalStep rec ∨ dget (chunk.foldl (submitOne o) acc).2.1 w ≠ none) ∧
    (∀ w, dget (chunk.foldl (submitOne o) acc).1 w ≠ none ↔
        dget acc.1 w ≠ none ∨ w ∈ chunk) := by
  intro chunk
  induction chunk with
  | nil =>
    intro acc h1 h2 h3
    exact ⟨h1, h2, h3, fun w => by simp⟩
  | cons vid rest ih =>
    intro acc h1 h2 h3
    rw [List.foldl_cons]
    rcases submitOne_shape o acc vid with ⟨rec, st1, hstep, heq⟩ |
      ⟨rec, tid, st1, hstep, heq⟩
    · rw [heq]
      obtain ⟨g1, g2, g3, g4⟩ := ih (dset acc.1 vid rec, acc.2.1, st1)
        (dkeys_dset_nodup _ _ _ h1)
        (fun w tv hw => by
          rw [dget_dset_isSome]
          exact Or.inl (h2 w tv hw))
        (fun w r hw => by
          by_cases hwv : vid = w
          · subst hwv
            rw [dget_dset_self] at hw
            injection hw with hinj
            subst hinj
            exact Or.inl (Or.inr (Or.inl hstep))
          · rw [dget_dset_ne _ _ _ _ hwv] at hw
            exact h3 w r hw)
      refine ⟨g1, g2, g3, fun w => ?_⟩
      rw [g4 w, dget_dset_isSome]
      constructor
      · rintro ((hh | hh) | hh)
        · exact Or.inl hh
        · exact Or.inr (by simp [hh])
        · exact Or.inr (List.mem_cons_of_mem _ hh)
      · rintro (hh | hh)
        · exact Or.inl (Or.inl hh)
        · rcases List.mem_cons.mp hh with rfl | hh2
          · exact Or.inl (Or.inr rfl)
          · exact Or.inr hh2
    · rw [heq]
      obtain ⟨g1, g2, g3, g4⟩ := ih (dset acc.1 vid rec, dset acc.2.1 vid tid, st1)
        (dkeys_dset_nodup _ _ _ h1)
        (fun w tv hw => by
          rw [dget_dset_isSome]
          by_cases hwv : vid = w
          · exact Or.inr hwv.symm
          · rw [dget_dset_ne _ _ _ _ hwv] at hw
            exact Or.inl (h2 w tv hw))
        (fun w r hw => by
          by_cases hwv : vid = w
          · subst hwv
            right
            rw [dget_dset_self]
            simp
          · rw [dget_dset_ne _ _ _ _ hwv] at hw
            rcases h3 w r hw with hh | hh
            · exact Or.inl hh
            · right
              rw [dget_dset_ne _ _ _ _ hwv]
              exact hh)
      refine ⟨g1, g2, g3, fun w => ?_⟩
      rw [g4 w, dget_dset_isSome]
      constructor
      · rintro ((hh | hh) | hh)
        · exact Or.inl hh
        · exact Or.inr (by simp [hh])
        · exact Or.inr (List.mem_cons_of_mem _ hh)
      · rintro (hh | hh)
        · exact Or.inl (Or.inl hh)
        · rcases List.mem_cons.mp hh with rfl | hh2
          · exact Or.inl (Or.inr rfl)
          · exact Or.inr hh2

theorem pollTask_shape (o : Oracle) (acc : RMap × AMap × St) (vt : String × JVal) :
    (∃ st1, pollTask o acc vt = (acc.1, dset acc.2.1 vt.1 vt.2, st1)) ∨
    (∃ text d st1, o acc.2.2.k = NetResp.http 200 text (some d) ∧
        statusTerminal d = true ∧
        pollTask o acc vt =
          (dset acc.1 vt.1 (mergeStatus (dgetD acc.1 vt.1 []) d), acc.2.1, st1)) ∨
    (∃ d st1,
        pollTask o acc vt =
          (dset acc.1 vt.1 (mergeStatus (dgetD acc.1 vt.1 []) d),
           dset acc.2.1 vt.1 vt.2, st1)) := by
  unfold pollTask netCall
  dsimp only
  rcases hr : o acc.2.2.k with e | ⟨code, text, body⟩
  · exact Or.inl ⟨_, rfl⟩
  · dsimp only
    split
    next hcode =>
      subst hcode
      rcases body with _ | d
      · exact Or.inl ⟨_, rfl⟩
      · dsimp only
        split
        next hterm => exact Or.inr (Or.inl ⟨text, d, _, rfl, hterm, rfl⟩)
        next hterm => exact Or.inr (Or.inr ⟨d, _, rfl⟩)
    next hcode => exact Or.inl ⟨_, rfl⟩

theorem pollPass_spec (o : Oracle) (H : ∀ i, stepFieldOK (o i)) :
    ∀ (items : List (String × JVal)) (acc : RMap × AMap × St),
      (dkeys acc.1).Nodup →
      (∀ p, p ∈ items → dget acc.1 p.1 ≠ none) →
      (∀ w tv, dget acc.2.1 w = some tv → dget acc.1 w ≠ none) →
      (∀ w rec, dget acc.1 w = some rec →
          terminalStep rec ∨ dget acc.2.1 w ≠ none ∨ w ∈ items.map Prod.fst) →
      (dkeys (items.foldl (pollTask o) acc).1).Nodup ∧
      (∀ w, dget (items.foldl (pollTask o) acc).1 w ≠ none ↔ dget acc.1 w ≠ none) ∧
      (∀ w tv, dget (items.foldl (pollTask o) acc).2.1 w = some tv →
          dget (items.foldl (pollTask o) acc).1 w ≠ none) ∧
      (∀ w rec, dget (items.foldl (pollTask o) acc).1 w = some rec →
          terminalStep rec ∨ dget (items.foldl (pollTask o) acc).2.1 w ≠ none) := by
  intro items
  induction items with
  | nil =>
    intro acc h1 _ h3 h4
    refine ⟨h1, fun w => Iff.rfl, h3, fun w rec hw => ?_⟩
    rcases h4 w rec hw with hh | hh | hh
    · exact Or.inl hh
    · exact Or.inr hh
    · simp at hh
  | cons vt rest ih =>
    intro acc h1 h2 h3 h4
    rw [List.foldl_cons]
    have hvt : dget acc.1 vt.1 ≠ none := h2 vt (List.mem_cons_self _ _)
    rcases pollTask_shape o acc vt with ⟨st1, heq⟩ |
      ⟨text, d, st1, hresp, hterm, heq⟩ | ⟨d, st1, heq⟩
    · rw [heq]
      obtain ⟨g1, g2, g3, g4⟩ := ih (acc.1, dset acc.2.1 vt.1 vt.2, st1) h1
        (fun p hp => h2 p (List.mem_cons_of_mem _ hp))
        (fun w tv hw => by
          by_cases hwv : vt.1 = w
          · subst hwv
            exact hvt
          · rw [dget_dset_ne _ _ _ _ hwv] at hw
            exact h3 w tv hw)
        (fun w rec hw => by
          rcases h4 w rec hw with hh | hh | hh
          · exact Or.inl hh
          · right; left
            rw [dget_dset_isSome]
            exact Or.inl hh
          · rw [List.map_cons, List.mem_cons] at hh
            rcases hh with hh2 | hh2
            · right; left
              rw [dget_dset_isSome]
              exact Or.inr hh2
            · exact Or.inr (Or.inr hh2))
      exact ⟨g1, g2, g3, g4⟩
    · rw [heq]
      obtain ⟨g1, g2, g3, g4⟩ := ih
        (dset acc.1 vt.1 (mergeStatus (dgetD acc.1 vt.1 []) d), acc.2.1, st1)
        (dkeys_dset_nodup _ _ _ h1)
        (fun p hp => by
          rw [dget_dset_isSome]
          exact Or.inl (h2 p (List.mem_cons_of_mem _ hp)))
        (fun w tv hw => by
          rw [dget_dset_isSome]
          exact Or.inl (h3 w tv hw))
        (fun w rec hw => by
          by_cases hwv : vt.1 = w
          · subst hwv
            rw [dget_dset_self] at hw
            injection hw with hinj
            subst hinj
            exact Or.inl (terminal_merge _ d
              (H acc.2.2.k 200 text d hresp rfl hterm) hterm)
          · rw [dget_dset_ne _ _ _ _ hwv] at hw
            rcases h4 w rec hw with hh | hh | hh
            · exact Or.inl hh
            · exact Or.inr (Or.inl hh)
            · rw [List.map_cons, List.mem_cons] at hh
              rcases hh with hh2 | hh2
              · exact absurd hh2.symm hwv
              · exact Or.inr (Or.inr hh2))
      refine ⟨g1, fun w => ?_, g3, g4⟩
      rw [g2 w, dget_dset_isSome]
      constructor
      · rintro (hh | hh)
        · exact hh
        · exact hh ▸ hvt
      · exact Or.inl
    · rw [heq]
      obtain ⟨g1, g2, g3, g4⟩ := ih
        (dset acc.1 vt.1 (mergeStatus (dgetD acc.1 vt.1 []) d),
         dset acc.2.1 vt.1 vt.2, st1)
        (dkeys_dset_nodup _ _ _ h1)
        (fun p hp => by
          rw [dget_dset_isSome]
          exact Or.inl (h2 p (List.mem_cons_of_mem _ hp)))
        (fun w tv hw => by
          rw [dget_dset_isSome]
          by_cases hwv : vt.1 = w
          · exact Or.inr hwv.symm
          · rw [dget_dset_ne _ _ _ _ hwv] at hw
            exact Or.inl (h3 w tv hw))
        (fun w rec hw => by
          by_cases hwv : vt.1 = w
          · subst hwv
            right; left
            rw [dget_dset_self]
            simp
          · rw [dget_dset_ne _ _ _ _ hwv] at hw
            rcases h4 w rec hw with hh | hh | hh
            · exact Or.inl hh
            · right; left
              rw [dget_dset_isSome]
              exact Or.inl hh
            · rw [List.map_cons, List.mem_cons] at hh
              rcases hh with hh2 | hh2
              · exact absurd hh2.symm hwv
              · exact Or.inr (Or.inr hh2))
      refine ⟨g1, fun w => ?_, g3, g4⟩
      rw [g2 w, dget_dset_isSome]
      constructor
      · rintro (hh | hh)
        · exact hh
        · exact hh ▸ hvt
      · exact Or.inl

theorem pollChunk_spec (o : Oracle) (H : ∀ i, stepFieldOK (o i)) :
    ∀ (fuel : Nat) (interval : ℚ) (active : AMap) (results : RMap) (st : St),
      (dkeys results).Nodup →
      (∀ w tv, dget active w = some tv → dget results w ≠ none) →
      (∀ w rec, dget results w = some rec →
          terminalStep rec ∨ dget active w ≠ none) →
      ∀ res1 st1, pollChunk o fuel interval active results st = (some res1, st1) →
        (dkeys res1).Nodup ∧
        (∀ w, dget res1 w ≠ none ↔ dget results w ≠ none) ∧
        (∀ w rec, dget res1 w = some rec → terminalStep rec) := by
  intro fuel
  induction fuel with
  | zero =>
    intro interval active results st h1 h2 h3 res1 st1 heq
    unfold pollChunk at heq
    by_cases ha : active.isEmpty
    · rw [if_pos ha] at heq
      have hae : active = [] := List.isEmpty_iff.mp ha
      subst hae
      injection heq with he1 he2
      injection he1 with he3
      subst he3
      refine ⟨h1, fun w => Iff.rfl, fun w rec hw => ?_⟩
      rcases h3 w rec hw with hh | hh
      · exact hh
      · simp at hh
    · rw [if_neg ha] at heq
      injection heq with he1 he2
      exact Option.noConfusion he1
  | succ fuel ih =>
    intro interval active results st h1 h2 h3 res1 st1 heq
    unfold pollChunk at heq
    by_cases ha : active.isEmpty
    · rw [if_pos ha] at heq
      have hae : active = [] := List.isEmpty_iff.mp ha
      subst hae
      injection heq with he1 he2
      injection he1 with he3
      subst he3
      refine ⟨h1, fun w => Iff.rfl, fun w rec hw => ?_⟩
      rcases h3 w rec hw with hh | hh
      · exact hh
      · simp at hh
    · rw [if_neg ha] at heq
      dsimp only at heq
      obtain ⟨g1, g2, g3, g4⟩ := pollPass_spec o H active (results, ([] : AMap), st)
        h1
        (fun p hp => by
          obtain ⟨tv, htv⟩ := (dget_isSome_iff_mem_dkeys active p.1).mpr
            (by exact List.mem_map_of_mem Prod.fst hp)
          exact h2 p.1 tv htv)
        (fun w tv hw => by simp at hw)
        (fun w rec hw => by
          rcases h3 w rec hw with hh | hh
          · exact Or.inl hh
          · right; right
            have hm : ∃ tv, dget active w = some tv := by
              cases hq : dget active w with
              | none => exact absurd hq hh
              | some tv => exact ⟨tv, rfl⟩
            simpa [dkeys] using (dget_isSome_iff_mem_dkeys active w).mp hm)
      obtain ⟨k1, k2, k3⟩ := ih (nextInterval interval) _ _ _ g1 g3 g4 res1 st1 heq
      exact ⟨k1, fun w => (k2 w).trans (g2 w), k3⟩

theorem dget_ne_none_iff_mem {β : Type} (d : Dict β) (q : String) :
    dget d q ≠ none ↔ q ∈ dkeys d := by
  rw [← dget_isSome_iff_mem_dkeys]
  cases h : dget d q <;> simp

theorem processChunk_spec (o : Oracle) (H : ∀ i, stepFieldOK (o i))
    (fuel : Nat) (chunk : List String) (results : RMap) (st : St)
    (h1 : (dkeys results).Nodup)
    (h3 : ∀ w rec, dget results w = some rec → terminalStep rec) :
    ∀ res1 st1, processChunk o fuel chunk results st = (some res1, st1) →
      (dkeys res1).Nodup ∧
      (∀ w, dget res1 w ≠ none ↔ dget results w ≠ none ∨ w ∈ chunk) ∧
      (∀ w rec, dget res1 w = some rec → terminalStep rec) := by
  intro res1 st1 heq
  unfold processChunk at heq
  dsimp only at heq
  obtain ⟨g1, g2, g3, g4⟩ := submitAll_spec o chunk (results, ([] : AMap), st)
    h1
    (fun w tv hw => by simp at hw)
    (fun w rec hw => Or.inl (h3 w rec hw))
  obtain ⟨k1, k2, k3⟩ :=
    pollChunk_spec o H fuel basePollInterval _ _ _ g1 g2 g3 res1 st1 heq
  exact ⟨k1, fun w => (k2 w).trans (g4 w), k3⟩

theorem processChunks_spec (o : Oracle) (H : ∀ i, stepFieldOK (o i)) (fuel : Nat) :
    ∀ (cs : List (List String)) (results : RMap) (st : St),
      (dkeys results).Nodup →
      (∀ w rec, dget results w = some rec → terminalStep rec) →
      ∀ res1 st1, processChunks o fuel cs results st = (some res1, st1) →
        (dkeys res1).Nodup ∧
        (∀ w, dget res1 w ≠ none ↔ dget results w ≠ none ∨ w ∈ cs.flatten) ∧
        (∀ w rec, dget res1 w = some rec → terminalStep rec) := by
  intro cs
  induction cs with
  | nil =>
    intro results st h1 h3 res1 st1 heq
    unfold processChunks at heq
    injection heq with he1 he2
    injection he1 with he3
    subst he3
    exact ⟨h1, fun w => by simp, h3⟩
  | cons c rest ih =>
    intro results st h1 h3 res1 st1 heq
    unfold processChunks at heq
    cases hpc : processChunk o fuel c results st with
    | mk opt st2 =>
      rw [hpc] at heq
      cases opt with
      | none =>
        dsimp only at heq
        injection heq with he1 _
        exact Option.noConfusion he1
      | some resMid =>
        dsimp only at heq
        obtain ⟨g1, g2, g3⟩ :=
          processChunk_spec o H fuel c results st h1 h3 resMid st2 hpc
        obtain ⟨k1, k2, k3⟩ := ih resMid st2 g1 g3 res1 st1 heq
        refine ⟨k1, fun w => ?_, k3⟩
        rw [k2 w, g2 w]
        simp only [List.flatten_cons, List.mem_append, or_assoc]

theorem gvids_mono (res : Jobj) (rest : List Jobj) (v : String)
    (h : v ∈ gvids [res] ∨ v ∈ gvids rest) : v ∈ gvids (res :: rest) := by
  unfold gvids at h ⊢
  rcases h with hh | hh
  · rw [List.mem_filterMap] at hh ⊢
    obtain ⟨a, ha, hfa⟩ := hh
    rw [List.mem_singleton] at ha
    exact ⟨a, by rw [ha]; exact List.mem_cons_self _ _, hfa⟩
  · rw [List.mem_filterMap] at hh ⊢
    obtain ⟨a, ha, hfa⟩ := hh
    exact ⟨a, List.mem_cons_of_mem _ ha, hfa⟩

theorem allError_fold_spec (msg : JVal) : ∀ (ids : List String) (acc : GRMap),
    (dkeys acc).Nodup →
    (∀ v r, dget acc v = some r → r.step = "success" ∨ r.step = "error") →
    (dkeys (ids.foldl (fun acc vid => dset acc vid ⟨"error", msg, none⟩) acc)).Nodup ∧
    (∀ v, dget (ids.foldl (fun acc vid => dset acc vid ⟨"error", msg, none⟩) acc) v ≠
        none ↔ dget acc v ≠ none ∨ v ∈ ids) ∧
    (∀ v r, dget (ids.foldl (fun acc vid => dset acc vid ⟨"error", msg, none⟩) acc) v =
        some r → r.step = "success" ∨ r.step = "error") := by
  intro ids
  induction ids with
  | nil =>
    intro acc h1 h2
    exact ⟨h1, fun v => by simp, h2⟩
  | cons a rest ih =>
    intro acc h1 h2
    rw [List.foldl_cons]
    obtain ⟨g1, g2, g3⟩ := ih (dset acc a ⟨"error", msg, none⟩)
      (dkeys_dset_nodup _ _ _ h1)
      (fun v r hv => by
        by_cases hav : a = v
        · subst hav
          rw [dget_dset_self] at hv
          injection hv with hinj
          subst hinj
          exact Or.inr rfl
        · rw [dget_dset_ne _ _ _ _ hav] at hv
          exact h2 v r hv)
    refine ⟨g1, fun v => ?_, g3⟩
    rw [g2 v, dget_dset_isSome]
    constructor
    · rintro ((hh | hh) | hh)
      · exact Or.inl hh
      · exact Or.inr (by simp [hh])
      · exact Or.inr (List.mem_cons_of_mem _ hh)
    · rintro (hh | hh)
      · exact Or.inl (Or.inl hh)
      · rcases List.mem_cons.mp hh with rfl | hh2
        · exact Or.inl (Or.inr rfl)
        · exact Or.inr hh2

theorem allError_spec (msg : JVal) (ids : List String) :
    (dkeys (allError ids msg)).Nodup ∧
    (∀ v, dget (allError ids msg) v ≠ none ↔ v ∈ ids) ∧
    (∀ v r, dget (allError ids msg) v = some r →
        r.step = "success" ∨ r.step = "error") := by
  unfold allError
  obtain ⟨g1, g2, g3⟩ := allError_fold_spec msg ids [] (by simp [dkeys])
    (fun v r hv => by simp at hv)
  exact ⟨g1, fun v => by rw [g2 v]; simp, g3⟩

theorem gFillStep_shape (acc : GRMap × St) (res : Jobj) :
    (gFillStep acc res).1 = acc.1 ∨
    ∃ w rec, w ∈ gvids [res] ∧ (rec.step = "success" ∨ rec.step = "error") ∧
      (gFillStep acc res).1 = dset acc.1 w rec := by
  unfold gFillStep
  cases hres : dget res "verificationId" with
  | none => exact Or.inl rfl
  | some v =>
    cases v with
    | s w =>
      dsimp only
      by_cases hw : w = ""
      · rw [if_pos hw]
        exact Or.inl rfl
      · rw [if_neg hw]
        right
        refine ⟨w, ⟨if truthy (dget res "success") then "success" else "error",
          dgetD res "message" (JVal.s ""), some res⟩, ?_, ?_, rfl⟩
        · unfold gvids
          rw [List.mem_filterMap]
          refine ⟨res, List.mem_singleton_self res, ?_⟩
          simp [hres, hw]
        · dsimp only
          by_cases htr : truthy (dget res "success") = true
          · rw [if_pos htr]
            exact Or.inl rfl
          · rw [if_neg htr]
            exact Or.inr rfl
    | n v2 => exact Or.inl rfl
    | b v2 => exact Or.inl rfl
    | null => exact Or.inl rfl

theorem gFill_fold_spec : ∀ (rs : List Jobj) (acc : GRMap × St),
    (dkeys acc.1).Nodup →
    (∀ v r, dget acc.1 v = some r → r.step = "success" ∨ r.step = "error") →
    (dkeys (rs.foldl gFillStep acc).1).Nodup ∧
    (∀ v, dget (rs.foldl gFillStep acc).1 v ≠ none →
        dget acc.1 v ≠ none ∨ v ∈ gvids rs) ∧
    (∀ v r, dget (rs.foldl gFillStep acc).1 v = some r →
        r.step = "success" ∨ r.step = "error") := by
  intro rs
  induction rs with
  | nil =>
    intro acc h1 h2
    exact ⟨h1, fun v hv => Or.inl hv, h2⟩
  | cons res rest ih =>
    intro acc h1 h2
    rw [List.foldl_cons]
    rcases gFillStep_shape acc res with heq | ⟨w, rec, hwv, hrec, heq⟩
    · obtain ⟨g1, g2, g3⟩ := ih (gFillStep acc res) (by rw [heq]; exact h1)
        (fun v r hv => h2 v r (by rw [heq] at hv; exact hv))
      refine ⟨g1, fun v hv => ?_, g3⟩
      rcases g2 v hv with hh | hh
      · rw [heq] at hh
        exact Or.inl hh
      · exact Or.inr (gvids_mono res rest v (Or.inr hh))
    · obtain ⟨g1, g2, g3⟩ := ih (gFillStep acc res)
        (by rw [heq]; exact dkeys_dset_nodup _ _ _ h1)
        (fun v r hv => by
          rw [heq] at hv
          by_cases hvw : w = v
          · subst hvw
            rw [dget_dset_self] at hv
            injection hv with hinj
            subst hinj
            exact hrec
          · rw [dget_dset_ne _ _ _ _ hvw] at hv
            exact h2 v r hv)
      refine ⟨g1, fun v hv => ?_, g3⟩
      rcases g2 v hv with hh | hh
      · rw [heq, dget_dset_isSome] at hh
        rcases hh with hh2 | hh2
        · exact Or.inl hh2
        · exact Or.inr (gvids_mono res rest v (Or.inl (hh2.symm ▸ hwv)))
      · exact Or.inr (gvids_mono res rest v (Or.inr hh))

theorem gMiss_fold_spec : ∀ (ids : List String) (m0 : GRMap),
    (dkeys m0).Nodup →
    (∀ v r, dget m0 v = some r → r.step = "success" ∨ r.step = "error") →
    (dkeys (gFillMissing ids m0)).Nodup ∧
    (∀ v, dget (gFillMissing ids m0) v ≠ none ↔ dget m0 v ≠ none ∨ v ∈ ids) ∧
    (∀ v r, dget (gFillMissing ids m0) v = some r →
        r.step = "success" ∨ r.step = "error") := by
  intro ids
  induction ids with
  | nil =>
    intro m0 h1 h2
    exact ⟨h1, fun v => by simp [gFillMissing], h2⟩
  | cons a rest ih =>
    intro m0 h1 h2
    have hstep : gFillMissing (a :: rest) m0 = gFillMissing rest (gMissStep m0 a) := rfl
    rw [hstep]
    cases hma : dget m0 a with
    | some wrec =>
      have hms : gMissStep m0 a = m0 := by
        unfold gMissStep
        rw [hma]
      rw [hms]
      obtain ⟨g1, g2, g3⟩ := ih m0 h1 h2
      refine ⟨g1, fun v => ?_, g3⟩
      rw [g2 v]
      constructor
      · rintro (hh | hh)
        · exact Or.inl hh
        · exact Or.inr (List.mem_cons_of_mem _ hh)
      · rintro (hh | hh)
        · exact Or.inl hh
        · rcases List.mem_cons.mp hh with rfl | hh2
          · exact Or.inl (by rw [hma]; simp)
          · exact Or.inr hh2
    | none =>
      have hms : gMissStep m0 a =
          dset m0 a ⟨"error", JVal.s "API未返回结果", none⟩ := by
        unfold gMissStep
        rw [hma]
      rw [hms]
      obtain ⟨g1, g2, g3⟩ := ih (dset m0 a ⟨"error", JVal.s "API未返回结果", none⟩)
        (dkeys_dset_nodup _ _ _ h1)
        (fun v r hv => by
          by_cases hav : a = v
          · subst hav
            rw [dget_dset_self] at hv
            injection hv with hinj
            subst hinj
            exact Or.inr rfl
          · rw [dget_dset_ne _ _ _ _ hav] at hv
            exact h2 v r hv)
      refine ⟨g1, fun v => ?_, g3⟩
      rw [g2 v, dget_dset_isSome]
      constructor
      · rintro ((hh | hh) | hh)
        · exact Or.inl hh
        · exact Or.inr (by simp [hh])
        · exact Or.inr (List.mem_cons_of_mem _ hh)
      · rintro (hh | hh)
        · exact Or.inl (Or.inl hh)
        · rcases List.mem_cons.mp hh with rfl | hh2
          · exact Or.inl (Or.inr rfl)
          · exact Or.inr hh2

/-- The result records carried by a `/verify/batch` response: the
`results` list of a parsed 200 body, empty for every other outcome (in
those the google `verify_batch` only writes input identifiers). -/
def gRespRecords : BatchResp → List Jobj
  | .exn _ => []
  | .http code _ body =>
    if code = 200 then
      match body with
      | some bb => bb.results.getD []
      | none => []
    else []

theorem verify_batch_g_spec (br : BatchResp) (ids : List String) (st : St) :
    ∀ m stg, verify_batch_g br ids st = (Except.ok m, stg) →
      (dkeys m).Nodup ∧
      (∀ vid, vid ∈ ids → dget m vid ≠ none) ∧
      (∀ vid, dget m vid ≠ none → vid ∈ ids ∨ vid ∈ gvids (gRespRecords br)) ∧
      (∀ vid rec, dget m vid = some rec →
          rec.step = "success" ∨ rec.step = "error") := by
  intro m stg heq
  cases br with
  | exn e =>
    unfold verify_batch_g at heq
    injection heq with he1 he2
    injection he1 with he3
    subst he3
    obtain ⟨g1, g2, g3⟩ := allError_spec (JVal.s e) ids
    exact ⟨g1, fun vid hin => (g2 vid).mpr hin,
      fun vid hv => Or.inl ((g2 vid).mp hv), g3⟩
  | http code text body =>
    unfold verify_batch_g at heq
    dsimp only at heq
    by_cases hc : code = 200
    · subst hc
      rw [if_pos rfl] at heq
      cases body with
      | none =>
        dsimp only at heq
        injection heq with he1 he2
        injection he1 with he3
        subst he3
        obtain ⟨g1, g2, g3⟩ := allError_spec (JVal.s "JSONDecodeError") ids
        exact ⟨g1, fun vid hin => (g2 vid).mpr hin,
          fun vid hv => Or.inl ((g2 vid).mp hv), g3⟩
      | some bb =>
        dsimp only at heq
        injection heq with he1 he2
        injection he1 with he3
        subst he3
        obtain ⟨f1, f2, f3⟩ := gFill_fold_spec (bb.results.getD [])
          (([] : GRMap), { st with k := st.k + 1 }) (by simp [dkeys])
          (fun v r hv => by simp at hv)
        obtain ⟨g1, g2, g3⟩ := gMiss_fold_spec ids
          (gBatchFill (bb.results.getD []) { st with k := st.k + 1 }).1 f1 f3
        refine ⟨g1, fun vid hin => (g2 vid).mpr (Or.inr hin), fun vid hv => ?_, g3⟩
        rcases (g2 vid).mp hv with hh | hh
        · rcases f2 vid hh with hh2 | hh2
          · simp at hh2
          · right
            have hrr : gRespRecords (.http 200 text (some bb)) =
                bb.results.getD [] := by
              simp [gRespRecords]
            rw [hrr]
            exact hh2
        · exact Or.inl hh
    · rw [if_neg hc] at heq
      injection heq with he1 he2
      injection he1 with he3
      subst he3
      obtain ⟨g1, g2, g3⟩ := allError_spec _ ids
      exact ⟨g1, fun vid hin => (g2 vid).mpr hin,
        fun vid hv => Or.inl ((g2 vid).mp hv), g3⟩

/-- C1 (amended): the claim's sources cover both variants.  System
variant: whenever `verify_batch` returns a mapping, it has exactly one
entry per input identifier and no others (its keys, with no duplicates,
are exactly the input identifiers), and — provided every 200 status
response with a terminal raw `status` carries either no `currentStep`
field or one of `success`/`error`/`completed` — every entry's
`currentStep` is one of the terminal values.  Google variant: the
returned mapping has an entry for every input identifier and every
entry's `currentStep` is terminal (`success` or `error`), but its keys
are only drawn from the input identifiers plus the identifiers named by
the response's records — a record naming a never-submitted identifier
adds an entry beyond the input, so "no other entries" holds there only
when the response names input identifiers alone. -/
theorem c1_batch_total_terminal (o : Oracle) (fuel : Nat) (ids : List String)
    (st : St) (results : RMap) (st1 : St) (br : BatchResp) (stg : St)
    (m : GRMap) (stg1 : St)
    (H : ∀ i, stepFieldOK (o i))
    (hret : verify_batch o fuel ids st = (Except.ok (some results), st1))
    (hretg : verify_batch_g br ids stg = (Except.ok m, stg1)) :
    ((dkeys results).Nodup ∧
     (∀ vid, vid ∈ dkeys results ↔ vid ∈ ids) ∧
     (∀ vid rec, dget results vid = some rec → terminalStep rec)) ∧
    ((dkeys m).Nodup ∧
     (∀ vid, vid ∈ ids → vid ∈ dkeys m) ∧
     (∀ vid, vid ∈ dkeys m → vid ∈ ids ∨ vid ∈ gvids (gRespRecords br)) ∧
     (∀ vid rec, dget m vid = some rec →
        rec.step = "success" ∨ rec.step = "error")) := by
  constructor
  · unfold verify_batch at hret
    by_cases he : ids.isEmpty
    · rw [if_pos he] at hret
      have hids : ids = [] := List.isEmpty_iff.mp he
      subst hids
      injection hret with he1 he2
      injection he1 with he3
      injection he3 with he4
      subst he4
      exact ⟨by simp [dkeys], fun vid => by simp [dkeys],
        fun vid rec hw => by simp at hw⟩
    · rw [if_neg he] at hret
      dsimp only at hret
      cases hpc : processChunks o fuel (chunks50 ids) []
          (cbCall none
            ("Starting async batch verification for " ++ toString ids.length ++
             " items (" ++ toString (chunks50 ids).length ++ " chunks)...") st) with
      | mk opt st2 =>
        rw [hpc] at hret
        cases opt with
        | none =>
          dsimp only at hret
          injection hret with he1 _
          injection he1 with he3
          exact Option.noConfusion he3
        | some resF =>
          dsimp only at hret
          injection hret with he1 he2
          injection he1 with he3
          injection he3 with he4
          subst he4
          obtain ⟨g1, g2, g3⟩ := processChunks_spec o H fuel (chunks50 ids) [] _
            (by simp [dkeys]) (fun w rec hw => by simp at hw) resF st2 hpc
          refine ⟨g1, fun vid => ?_, g3⟩
          rw [← dget_ne_none_iff_mem, g2 vid,
            chunks50_join_aux ids.length ids (le_refl _)]
          simp
  · obtain ⟨g1, g2, g3, g4⟩ := verify_batch_g_spec br ids stg m stg1 hretg
    exact ⟨g1, fun vid hin => (dget_ne_none_iff_mem m vid).mp (g2 vid hin),
      fun vid hmem => g3 vid ((dget_ne_none_iff_mem m vid).mpr hmem), g4⟩

/-- The concrete system-variant run falsifying C1 as stated: submission
succeeds, the single status poll has terminal raw status `completed` but
reports `currentStep: pending`. -/
def oC1 : Oracle := fun i =>
  match i with
  | 0 => .http 200 "" (some [("task_id", JVal.s "t1")])
  | 1 => .http 200 "" (some [("status", JVal.s "completed"),
                             ("currentStep", JVal.s "pending"), ("extra", JVal.n 7)])
  | _ => .exn "x"

/-- The google-variant response falsifying C1's "no other entries": a
record for the identifier `zz` that was never submitted. -/
def brC1g : BatchResp :=
  .http 200 "" (some ⟨some [[("verificationId", JVal.s "zz"),
                             ("success", JVal.b true)]], []⟩)

/-- C1 counterexample, on both cited variants.  System variant:
`verify_batch` returns a mapping whose single entry has
`currentStep = "pending"` — not a terminal value — because the remote
paired a terminal raw `status` with a `pending` `currentStep`.  Google
variant: the spurious remote record for `zz` creates an entry whose key
is not an input identifier, so the mapping has an entry other than the
input's — "exactly one entry for each input identifier and no other
entries" is false. -/
theorem c1_counterexample :
    ((verify_batch oC1 10 ["v1"] st0).1 =
      Except.ok (some [("v1", [("currentStep", JVal.s "pending"),
                               ("message", JVal.s ""), ("extra", JVal.n 7)])]) ∧
     ¬ terminalStep [("currentStep", JVal.s "pending"),
                     ("message", JVal.s ""), ("extra", JVal.n 7)]) ∧
    ((verify_batch_g brC1g ["v1"] st0).1 =
      Except.ok [("zz", ⟨"success", JVal.s "",
          some [("verificationId", JVal.s "zz"), ("success", JVal.b true)]⟩),
        ("v1", ⟨"error", JVal.s "API未返回结果", none⟩)] ∧
     "zz" ∈ dkeys [("zz", (⟨"success", JVal.s "",
          some [("verificationId", JVal.s "zz"), ("success", JVal.b true)]⟩ : GRec)),
        ("v1", ⟨"error", JVal.s "API未返回结果", none⟩)] ∧
     ("zz" : String) ∉ (["v1"] : List String)) := by
  refine ⟨⟨rfl, ?_⟩, rfl, by decide, by decide⟩
  intro h
  rcases h with hh | hh | hh <;> simp [dget] at hh

/-- The well-behaved system-variant remote for the C1 witness: one task
created, one terminal poll with `currentStep: success`. -/
def oC1w : Oracle := fun i =>
  match i with
  | 0 => .http 200 "" (some [("task_id", JVal.s "t1")])
  | 1 => .http 200 "" (some [("status", JVal.s "completed"),
                             ("currentStep", JVal.s "success"),
                             ("message", JVal.s "ok")])
  | _ => .exn "x"

theorem oC1w_stepFieldOK : ∀ i, stepFieldOK (oC1w i) := by
  intro i
  rcases i with _ | _ | i
  · intro code text d heq h200 hterm
    have heq2 : NetResp.http 200 "" (some [("task_id", JVal.s "t1")]) =
        NetResp.http code text (some d) := heq
    injection heq2 with hc ht hb
    injection hb with hbd
    subst hbd
    exact absurd hterm (by decide)
  · intro code text d heq h200 hterm
    have heq2 : NetResp.http 200 "" (some [("status", JVal.s "completed"),
        ("currentStep", JVal.s "success"), ("message", JVal.s "ok")]) =
        NetResp.http code text (some d) := heq
    injection heq2 with hc ht hb
    injection hb with hbd
    subst hbd
    exact Or.inr (Or.inl rfl)
  · intro code text d heq h200 hterm
    have heq2 : NetResp.exn "x" = NetResp.http code text (some d) := heq
    exact NetResp.noConfusion heq2

/-- The well-behaved google-variant response for the C1 witness: one
record for the submitted identifier with a truthy `success` flag. -/
def brC1w : BatchResp :=
  .http 200 "" (some ⟨some [[("verificationId", JVal.s "v1"),
                             ("success", JVal.b true),
                             ("message", JVal.s "ok")]], []⟩)

/-- Witness for the amended C1 theorem at concrete well-behaved runs of
both variants: the system entry is terminal and keyed by the input
identifier, and the google entry's step is terminal. -/
theorem c1_batch_total_terminal_witness :
    terminalStep [("currentStep", JVal.s "success"), ("message", JVal.s "ok")] ∧
    "v1" ∈ dkeys [("v1", [("currentStep", JVal.s "success"),
                          ("message", JVal.s "ok")])] ∧
    (GRec.step ⟨"success", JVal.s "ok",
        some [("verificationId", JVal.s "v1"), ("success", JVal.b true),
              ("message", JVal.s "ok")]⟩ = "success" ∨
     GRec.step ⟨"success", JVal.s "ok",
        some [("verificationId", JVal.s "v1"), ("success", JVal.b true),
              ("message", JVal.s "ok")]⟩ = "error") := by
  have h := c1_batch_total_terminal oC1w 10 ["v1"] st0
    [("v1", [("currentStep", JVal.s "success"), ("message", JVal.s "ok")])]
    ⟨3, [], [],
     [(none, "Starting async batch verification for 1 items (1 chunks)..."),
      (some "v1", "Step: pending | Msg: Creating task..."),
      (some "v1", "Step: pending | Msg: Task created, waiting for processing..."),
      (some "v1", "Step: success | Msg: ok")], 0⟩
    brC1w st0
    [("v1", ⟨"success", JVal.s "ok",
        some [("verificationId", JVal.s "v1"), ("success", JVal.b true),
              ("message", JVal.s "ok")]⟩)]
    ⟨1, [], [], [(some "v1", "Step: success | Msg: ok")], 0⟩
    oC1w_stepFieldOK rfl rfl
  exact ⟨h.1.2.2 "v1" _ rfl, (h.1.2.1 "v1").mpr (by decide),
    h.2.2.2.2 "v1" _ rfl⟩
